import Mathlib

/-!
Verification of the DB25 SQL tokenizer (`src/simd_tokenizer.cpp`,
`include/char_classifier.hpp`, `include/simd_tokenizer.hpp`).

The input buffer is modelled as a `List Nat` of byte values (< 256).
The tokenizer's mutable state `(position_, line_, column_)` is passed
explicitly; each scan function receives the remaining input (the suffix
of the buffer starting at `position_`) and returns the consumed bytes
(the token `value`, which in C++ is a `string_view` slice of the input),
the unconsumed rest, and the updated line/column.
-/

set_option maxRecDepth 100000

namespace db25

/-- Token kinds, from `TokenType` in `simd_tokenizer.hpp`. -/
inductive TokenType where
  | Unknown
  | Keyword
  | Identifier
  | Number
  | String
  | Operator
  | Delimiter
  | Whitespace
  | Comment
  | EndOfFile
deriving DecidableEq, Repr

/-- A token, from `struct Token` in `simd_tokenizer.hpp`.  `value` is the
slice of the input covered by the token; `start` is the byte offset of
that slice within the input (in C++ this is the `string_view`'s pointer
minus the input pointer).  `keyword_id` uses `0` for `Keyword::UNKNOWN`. -/
structure Token where
  type : TokenType
  value : List Nat
  keyword_id : Nat
  line : Nat
  column : Nat
  start : Nat
deriving DecidableEq, Repr

/-- Modelled from the spec: the keyword dictionary (C2) lives in
`keywords.hpp`, which is not part of the sources here.  The spec only
requires `find_keyword(slice) -> keyword_id_or_unknown` (0 = unknown) and
an optional SIMD variant used by `scan_identifier_or_keyword` for lexemes
of length at most 32; both are total functions from byte slices to
keyword ids, so we keep them abstract. -/
structure KeywordDict where
  find_keyword : List Nat → Nat
  find_keyword_simd : List Nat → Nat

/-- The 256-entry classification table `char_lookup_table` from
`char_classifier.hpp` (bit flags: 1 whitespace, 2 upper, 4 lower,
8 digit, 16 underscore, 32 quote, 64 operator, 128 delimiter).
Values ≥ 256 (never produced by a byte) fall through to 0. -/
def char_lookup_table (b : Nat) : Nat :=
  if b = 9 ∨ b = 10 ∨ b = 13 ∨ b = 32 then 1
  else if 65 ≤ b ∧ b ≤ 90 then 2
  else if 97 ≤ b ∧ b ≤ 122 then 4
  else if 48 ≤ b ∧ b ≤ 57 then 8
  else if b = 95 then 16
  else if b = 34 ∨ b = 39 then 32
  else if b = 33 ∨ b = 37 ∨ b = 38 ∨ b = 42 ∨ b = 43 ∨ b = 45 ∨ b = 46 ∨
          b = 47 ∨ b = 60 ∨ b = 61 ∨ b = 62 ∨ b = 94 ∨ b = 124 ∨ b = 126 then 64
  else if b = 40 ∨ b = 41 ∨ b = 44 ∨ b = 58 ∨ b = 59 ∨ b = 91 ∨ b = 93 ∨
          b = 123 ∨ b = 125 then 128
  else 0

/-- Predicate `is_identifier_start` from `char_classifier.hpp`
(`CHAR_IDENT_START = 2 | 4 | 16 = 22`). -/
def is_identifier_start (b : Nat) : Bool := (char_lookup_table b) &&& 22 != 0

/-- Predicate `is_identifier_cont` from `char_classifier.hpp`
(`CHAR_IDENT_CONT = 22 | 8 = 30`). -/
def is_identifier_cont (b : Nat) : Bool := (char_lookup_table b) &&& 30 != 0

/-- Predicate `is_digit` from `char_classifier.hpp`. -/
def is_digit (b : Nat) : Bool := (char_lookup_table b) &&& 8 != 0

/-- Predicate `is_whitespace` from `char_classifier.hpp`. -/
def is_whitespace (b : Nat) : Bool := (char_lookup_table b) &&& 1 != 0

/-- Predicate `is_operator` from `char_classifier.hpp`. -/
def is_operator (b : Nat) : Bool := (char_lookup_table b) &&& 64 != 0

/-- Predicate `is_delimiter` from `char_classifier.hpp`. -/
def is_delimiter (b : Nat) : Bool := (char_lookup_table b) &&& 128 != 0

/-- Predicate `is_quote` from `char_classifier.hpp`. -/
def is_quote (b : Nat) : Bool := (char_lookup_table b) &&& 32 != 0

/-- Modelled from the spec: the SIMD whitespace scanner (C3) lives in
`simd_architecture.hpp`, which is not part of the sources here.  Its
contract (§4.3) is `skip_whitespace(ptr, len) -> n` where `n` is the
length of the longest whitespace prefix, every tier being byte-for-byte
equivalent to the scalar loop over `char_lookup_table`; this is that
scalar loop. -/
def skip_whitespace : List Nat → Nat
  | [] => 0
  | b :: rest => if is_whitespace b then skip_whitespace rest + 1 else 0

/-- Embedding of `SimdTokenizer::update_position`: walk `count` skipped bytes, updating
`(line_, column_)`: a newline increments the line and resets the column
to 1, any other byte increments the column. -/
def update_position : List Nat → Nat → Nat → Nat × Nat
  | [], line, col => (line, col)
  | b :: rest, line, col =>
    if b = 10 then update_position rest (line + 1) 1
    else update_position rest line (col + 1)

/-- The loop of `SimdTokenizer::scan_identifier_or_keyword`: consume
bytes while `is_identifier_cont`; returns (consumed, rest). -/
def scan_ident_loop : List Nat → List Nat × List Nat
  | [] => ([], [])
  | c :: rest =>
    if is_identifier_cont c then
      let (v, r) := scan_ident_loop rest
      (c :: v, r)
    else ([], c :: rest)

/-- Embedding of `SimdTokenizer::scan_identifier_or_keyword`: consume the lexeme, look
it up in the keyword dictionary, retry with the SIMD lookup when unknown
and the lexeme is at most 32 bytes, and emit `Keyword` or `Identifier`. -/
def scan_identifier_or_keyword (dict : KeywordDict) (rem : List Nat)
    (pos line col : Nat) : Token × List Nat × Nat × Nat :=
  let (v, r) := scan_ident_loop rem
  let kw0 := dict.find_keyword v
  let kw := if kw0 = 0 ∧ v.length ≤ 32 then dict.find_keyword_simd v else kw0
  let type := if kw ≠ 0 then TokenType.Keyword else TokenType.Identifier
  (⟨type, v, kw, line, col, pos⟩, r, line, col + v.length)

/-- The loop of `SimdTokenizer::scan_number`: consume digits, at most one
`.` (46) while neither a dot nor an exponent has been seen, and at most
one `e`/`E` (101/69), the latter optionally followed by one `+`/`-`
(43/45); returns (consumed, rest). -/
def scan_number_loop (hasDot hasExp : Bool) : List Nat → List Nat × List Nat
  | [] => ([], [])
  | c :: rest =>
    if is_digit c then
      let (v, r) := scan_number_loop hasDot hasExp rest
      (c :: v, r)
    else if c = 46 ∧ hasDot = false ∧ hasExp = false then
      let (v, r) := scan_number_loop true hasExp rest
      (c :: v, r)
    else if (c = 101 ∨ c = 69) ∧ hasExp = false then
      match rest with
      | [] => ([c], [])
      | c2 :: rest2 =>
        if c2 = 43 ∨ c2 = 45 then
          let (v, r) := scan_number_loop hasDot true rest2
          (c :: c2 :: v, r)
        else
          let (v, r) := scan_number_loop hasDot true (c2 :: rest2)
          (c :: v, r)
    else ([], c :: rest)

/-- Embedding of `SimdTokenizer::scan_number`: every consumed byte advances the column
by one; no newline can be consumed. -/
def scan_number (rem : List Nat) (pos line col : Nat) :
    Token × List Nat × Nat × Nat :=
  let (v, r) := scan_number_loop false false rem
  (⟨TokenType.Number, v, 0, line, col, pos⟩, r, line, col + v.length)

/-- The loop of `SimdTokenizer::scan_string` (after the opening quote has
been consumed): a byte equal to the quote terminates the literal unless
the immediately following byte is also the quote, in which case both are
consumed; a newline (10) advances the line and resets the column. -/
def scan_string_loop (q : Nat) : List Nat → Nat → Nat →
    List Nat × List Nat × Nat × Nat
  | [], line, col => ([], [], line, col)
  | c :: rest, line, col =>
    if c = q then
      match rest with
      | c2 :: rest2 =>
        if c2 = q then
          let (v, r, l, k) := scan_string_loop q rest2 line (col + 2)
          (c :: c2 :: v, r, l, k)
        else ([c], c2 :: rest2, line, col + 1)
      | [] => ([c], [], line, col + 1)
    else if c = 10 then
      let (v, r, l, k) := scan_string_loop q rest (line + 1) 1
      (c :: v, r, l, k)
    else
      let (v, r, l, k) := scan_string_loop q rest line (col + 1)
      (c :: v, r, l, k)

/-- Embedding of `SimdTokenizer::scan_string`: the opening quote is consumed first
(column + 1), then the loop runs; the value starts at the opening quote. -/
def scan_string (q : Nat) (rem : List Nat) (pos line col : Nat) :
    Token × List Nat × Nat × Nat :=
  match rem with
  | c :: rest =>
    let (v, r, l, k) := scan_string_loop q rest line (col + 1)
    (⟨TokenType.String, c :: v, 0, line, col, pos⟩, r, l, k)
  | [] => (⟨TokenType.String, [], 0, line, col, pos⟩, [], line, col)

/-- The loop of `SimdTokenizer::scan_comment` (after `--`): consume up to
and including the next newline, or to end of input. -/
def scan_line_comment_loop : List Nat → Nat → Nat →
    List Nat × List Nat × Nat × Nat
  | [], line, col => ([], [], line, col)
  | c :: rest, line, col =>
    if c = 10 then ([c], rest, line + 1, 1)
    else
      let (v, r, l, k) := scan_line_comment_loop rest line (col + 1)
      (c :: v, r, l, k)

/-- Embedding of `SimdTokenizer::scan_comment`: the caller guarantees the two leading
`-` bytes; they are consumed (column + 2) before the loop. -/
def scan_comment (rem : List Nat) (pos line col : Nat) :
    Token × List Nat × Nat × Nat :=
  match rem with
  | c1 :: c2 :: rest =>
    let (v, r, l, k) := scan_line_comment_loop rest line (col + 2)
    (⟨TokenType.Comment, c1 :: c2 :: v, 0, line, col, pos⟩, r, l, k)
  | rem => (⟨TokenType.Comment, rem, 0, line, col, pos⟩, [], line, col)

/-- The loop of `SimdTokenizer::scan_block_comment` (after `/*`): the
C++ loop runs while `position_ + 1 < input_size_`, i.e. while at least
two bytes remain; `*/` (42, 47) is consumed and ends the comment; when
fewer than two bytes remain the loop exits without consuming them. -/
def scan_block_comment_loop : List Nat → Nat → Nat →
    List Nat × List Nat × Nat × Nat
  | c1 :: c2 :: rest, line, col =>
    if c1 = 42 ∧ c2 = 47 then
      ([c1, c2], rest, line, col + 2)
    else if c1 = 10 then
      let (v, r, l, k) := scan_block_comment_loop (c2 :: rest) (line + 1) 1
      (c1 :: v, r, l, k)
    else
      let (v, r, l, k) := scan_block_comment_loop (c2 :: rest) line (col + 1)
      (c1 :: v, r, l, k)
  | rem, line, col => ([], rem, line, col)

/-- Embedding of `SimdTokenizer::scan_block_comment`: the caller guarantees the `/*`
prefix; it is consumed (column + 2) before the loop. -/
def scan_block_comment (rem : List Nat) (pos line col : Nat) :
    Token × List Nat × Nat × Nat :=
  match rem with
  | c1 :: c2 :: rest =>
    let (v, r, l, k) := scan_block_comment_loop rest line (col + 2)
    (⟨TokenType.Comment, c1 :: c2 :: v, 0, line, col, pos⟩, r, l, k)
  | rem => (⟨TokenType.Comment, rem, 0, line, col, pos⟩, [], line, col)

/-- The two-byte operator extension test of
`SimdTokenizer::scan_operator_or_delimiter`: `<=`, `<>`, `>=`, `!=`,
`==`, `||`, `&&`, `::`, `<<`, `>>` (bytes: `<`=60 `>`=62 `=`=61 `!`=33
`|`=124 `&`=38 `:`=58). -/
def op_pair (c n : Nat) : Bool :=
  (c == 60 && (n == 61 || n == 62)) ||
  (c == 62 && n == 61) ||
  (c == 33 && n == 61) ||
  (c == 61 && n == 61) ||
  (c == 124 && n == 124) ||
  (c == 38 && n == 38) ||
  (c == 58 && n == 58) ||
  (c == 60 && n == 60) ||
  (c == 62 && n == 62)

/-- Embedding of `SimdTokenizer::scan_operator_or_delimiter`: consume the first byte,
classify via `is_delimiter`, then consume a second byte exactly when the
pair is in the extension table. -/
def scan_operator_or_delimiter (rem : List Nat) (pos line col : Nat) :
    Token × List Nat × Nat × Nat :=
  match rem with
  | c :: rest =>
    let type := if is_delimiter c then TokenType.Delimiter else TokenType.Operator
    match rest with
    | c2 :: rest2 =>
      if op_pair c c2 then
        (⟨type, [c, c2], 0, line, col, pos⟩, rest2, line, col + 2)
      else
        (⟨type, [c], 0, line, col, pos⟩, c2 :: rest2, line, col + 1)
    | [] => (⟨type, [c], 0, line, col, pos⟩, [], line, col + 1)
  | [] => (⟨TokenType.Operator, [], 0, line, col, pos⟩, [], line, col)

/-- Embedding of `SimdTokenizer::next_token`: dispatch on the first byte's class;
`--` starts a line comment and `/*` a block comment only when the second
byte is present (the C++ guards `position_ + 1 < input_size_`). -/
def next_token (dict : KeywordDict) (rem : List Nat) (pos line col : Nat) :
    Token × List Nat × Nat × Nat :=
  match rem with
  | [] => (⟨TokenType.EndOfFile, [], 0, line, col, pos⟩, [], line, col)
  | c :: rest =>
    if is_identifier_start c then
      scan_identifier_or_keyword dict (c :: rest) pos line col
    else if is_digit c then
      scan_number (c :: rest) pos line col
    else if is_quote c then
      scan_string c (c :: rest) pos line col
    else if c = 45 ∧ rest.head? = some 45 then
      scan_comment (c :: rest) pos line col
    else if c = 47 ∧ rest.head? = some 42 then
      scan_block_comment (c :: rest) pos line col
    else
      scan_operator_or_delimiter (c :: rest) pos line col

/-- The loop of `SimdTokenizer::tokenize`: skip whitespace (updating the
position over the skipped bytes), stop at end of input, otherwise take
one token; `Whitespace` tokens are filtered out and `EndOfFile` breaks
the loop.  `fuel` bounds the number of iterations; since every iteration
that recurses consumes at least one byte, `fuel = rem.length` suffices
(proved below), so this is the C++ `while` loop. -/
def tokenize_go (dict : KeywordDict) :
    Nat → List Nat → Nat → Nat → Nat → List Token
  | 0, _, _, _, _ => []
  | fuel + 1, rem, pos, line, col =>
    let n := skip_whitespace rem
    let (line1, col1) := update_position (rem.take n) line col
    match rem.drop n with
    | [] => []
    | c :: rest =>
      let (tok, r, l2, k2) := next_token dict (c :: rest) (pos + n) line1 col1
      let tail := if tok.type = TokenType.EndOfFile then []
                  else tokenize_go dict fuel r (pos + n + tok.value.length) l2 k2
      if tok.type = TokenType.Whitespace then tail else tok :: tail

/-- Embedding of `SimdTokenizer::tokenize`: run the loop from offset 0, line 1,
column 1. -/
def tokenize (dict : KeywordDict) (input : List Nat) : List Token :=
  tokenize_go dict input.length input 0 1 1

/-- A keyword dictionary that knows no keywords, used for concrete
evaluations whose lexemes are not SQL keywords. -/
def dict0 : KeywordDict := ⟨fun _ => 0, fun _ => 0⟩

example : tokenize dict0 [97, 32, 98] =
    [⟨TokenType.Identifier, [97], 0, 1, 1, 0⟩,
     ⟨TokenType.Identifier, [98], 0, 1, 3, 2⟩] := by decide

example : tokenize dict0 [49, 46, 53, 101, 43, 51] =
    [⟨TokenType.Number, [49, 46, 53, 101, 43, 51], 0, 1, 1, 0⟩] := by decide

example : tokenize dict0 [47, 42, 97] =
    [⟨TokenType.Comment, [47, 42], 0, 1, 1, 0⟩,
     ⟨TokenType.Identifier, [97], 0, 1, 3, 2⟩] := by decide

/-! ### Facts about the classification table -/

theorem char_lookup_table_ge (b : Nat) (h : 256 ≤ b) : char_lookup_table b = 0 := by
  unfold char_lookup_table
  repeat' split
  all_goals omega

theorem is_whitespace_iff (b : Nat) :
    is_whitespace b = true ↔ b = 9 ∨ b = 10 ∨ b = 13 ∨ b = 32 := by
  rcases Nat.lt_or_ge b 256 with h | h
  · exact (by decide :
      ∀ b < 256, is_whitespace b = true ↔ b = 9 ∨ b = 10 ∨ b = 13 ∨ b = 32) b h
  · rw [is_whitespace, char_lookup_table_ge b h]
    simp only [Nat.zero_and]
    constructor
    · intro hx; exact absurd hx (by decide)
    · omega

theorem is_digit_iff (b : Nat) : is_digit b = true ↔ 48 ≤ b ∧ b ≤ 57 := by
  rcases Nat.lt_or_ge b 256 with h | h
  · exact (by decide : ∀ b < 256, is_digit b = true ↔ 48 ≤ b ∧ b ≤ 57) b h
  · rw [is_digit, char_lookup_table_ge b h]
    simp only [Nat.zero_and]
    constructor
    · intro hx; exact absurd hx (by decide)
    · omega

theorem is_quote_iff (b : Nat) : is_quote b = true ↔ b = 34 ∨ b = 39 := by
  rcases Nat.lt_or_ge b 256 with h | h
  · exact (by decide : ∀ b < 256, is_quote b = true ↔ b = 34 ∨ b = 39) b h
  · rw [is_quote, char_lookup_table_ge b h]
    simp only [Nat.zero_and]
    constructor
    · intro hx; exact absurd hx (by decide)
    · omega

theorem is_identifier_start_iff (b : Nat) :
    is_identifier_start b = true ↔
      (65 ≤ b ∧ b ≤ 90) ∨ (97 ≤ b ∧ b ≤ 122) ∨ b = 95 := by
  rcases Nat.lt_or_ge b 256 with h | h
  · exact (by decide : ∀ b < 256, is_identifier_start b = true ↔
      (65 ≤ b ∧ b ≤ 90) ∨ (97 ≤ b ∧ b ≤ 122) ∨ b = 95) b h
  · rw [is_identifier_start, char_lookup_table_ge b h]
    simp only [Nat.zero_and]
    constructor
    · intro hx; exact absurd hx (by decide)
    · omega

theorem is_identifier_cont_iff (b : Nat) :
    is_identifier_cont b = true ↔
      (65 ≤ b ∧ b ≤ 90) ∨ (97 ≤ b ∧ b ≤ 122) ∨ (48 ≤ b ∧ b ≤ 57) ∨ b = 95 := by
  rcases Nat.lt_or_ge b 256 with h | h
  · exact (by decide : ∀ b < 256, is_identifier_cont b = true ↔
      (65 ≤ b ∧ b ≤ 90) ∨ (97 ≤ b ∧ b ≤ 122) ∨ (48 ≤ b ∧ b ≤ 57) ∨ b = 95) b h
  · rw [is_identifier_cont, char_lookup_table_ge b h]
    simp only [Nat.zero_and]
    constructor
    · intro hx; exact absurd hx (by decide)
    · omega

theorem is_identifier_start_cont {b : Nat} (h : is_identifier_start b = true) :
    is_identifier_cont b = true := by
  rw [is_identifier_start_iff] at h
  rw [is_identifier_cont_iff]
  omega

theorem is_identifier_cont_ne_nl {b : Nat} (h : is_identifier_cont b = true) :
    b ≠ 10 := by
  rw [is_identifier_cont_iff] at h; omega

theorem is_whitespace_ten : is_whitespace 10 = true := by decide

/-! ### `update_position` -/

theorem update_position_append (a : List Nat) :
    ∀ (b : List Nat) (line col : Nat),
      update_position (a ++ b) line col =
        update_position b (update_position a line col).1
          (update_position a line col).2 := by
  induction a with
  | nil => intro b line col; rfl
  | cons c rest ih =>
    intro b line col
    by_cases h : c = 10 <;> simp [update_position, h, ih]

theorem update_position_no_nl (l : List Nat) :
    ∀ line col, (∀ b ∈ l, b ≠ 10) →
      update_position l line col = (line, col + l.length) := by
  induction l with
  | nil => intro line col _; rfl
  | cons c rest ih =>
    intro line col h
    have hc : c ≠ 10 := h c (by simp)
    simp only [update_position, if_neg hc]
    rw [ih line (col + 1) (fun b hb => h b (by simp [hb]))]
    simp
    omega

/-! ### `skip_whitespace` -/

theorem skip_whitespace_le (rem : List Nat) : skip_whitespace rem ≤ rem.length := by
  induction rem with
  | nil => simp [skip_whitespace]
  | cons c rest ih =>
    simp only [skip_whitespace]
    split
    · simp only [List.length_cons]; omega
    · simp

theorem skip_whitespace_take (rem : List Nat) :
    ∀ b ∈ rem.take (skip_whitespace rem), is_whitespace b = true := by
  induction rem with
  | nil => simp [skip_whitespace]
  | cons c rest ih =>
    simp only [skip_whitespace]
    split
    · rename_i hc
      intro b hb
      rcases List.mem_cons.mp (by simpa using hb) with h | h
      · exact h ▸ hc
      · exact ih b h
    · simp

theorem skip_whitespace_drop_head (rem : List Nat) (c : Nat) (rest' : List Nat)
    (h : rem.drop (skip_whitespace rem) = c :: rest') :
    is_whitespace c = false := by
  induction rem generalizing c rest' with
  | nil => simp [skip_whitespace] at h
  | cons b rest ih =>
    by_cases hb : is_whitespace b = true
    · simp only [skip_whitespace, if_pos hb] at h
      exact ih c rest' (by simpa using h)
    · simp only [skip_whitespace, if_neg hb] at h
      simp only [List.drop_zero] at h
      cases h
      simpa using hb

/-! ### Scan-loop lemmas: each loop consumes a prefix (`consumed ++ rest =
input`) and its line/column bookkeeping agrees with `update_position`. -/

theorem scan_ident_loop_append (input : List Nat) :
    (scan_ident_loop input).1 ++ (scan_ident_loop input).2 = input := by
  induction input using scan_ident_loop.induct with
  | case1 => rfl
  | case2 b rest hb v r hE ih =>
    rw [hE] at ih
    simp only [scan_ident_loop, if_pos hb, hE]
    simpa using ih
  | case3 b rest hb =>
    simp [scan_ident_loop, hb]

theorem scan_ident_loop_mem (input : List Nat) :
    ∀ b ∈ (scan_ident_loop input).1, is_identifier_cont b = true := by
  induction input using scan_ident_loop.induct with
  | case1 => simp [scan_ident_loop]
  | case2 b rest hb v r hE ih =>
    rw [hE] at ih
    simp only [scan_ident_loop, if_pos hb, hE]
    intro x hx
    rcases List.mem_cons.mp (by simpa using hx) with h | h
    · exact h ▸ hb
    · exact ih x h
  | case3 b rest hb =>
    simp [scan_ident_loop, hb]

theorem scan_ident_loop_cons {c : Nat} (rest : List Nat)
    (h : is_identifier_cont c = true) :
    (scan_ident_loop (c :: rest)).1 =
      c :: (scan_ident_loop rest).1 := by
  rcases hE : scan_ident_loop rest with ⟨v, r⟩
  simp [scan_ident_loop, h, hE]

/-- Unfolding equation for `scan_number_loop` on the empty list. -/
theorem scan_number_loop_nil (d e : Bool) : scan_number_loop d e [] = ([], []) := rfl

/-- Unfolding equation for `scan_number_loop` on a single byte. -/
theorem scan_number_loop_one (d e : Bool) (c : Nat) : scan_number_loop d e [c] =
    (if is_digit c then ([c], ([] : List Nat))
     else if c = 46 ∧ d = false ∧ e = false then ([c], [])
     else if (c = 101 ∨ c = 69) ∧ e = false then ([c], [])
     else ([], [c])) := rfl

/-- Unfolding equation for `scan_number_loop` on two or more bytes. -/
theorem scan_number_loop_cons2 (d e : Bool) (c c2 : Nat) (rest : List Nat) :
    scan_number_loop d e (c :: c2 :: rest) =
    (if is_digit c then
       (c :: (scan_number_loop d e (c2 :: rest)).1, (scan_number_loop d e (c2 :: rest)).2)
     else if c = 46 ∧ d = false ∧ e = false then
       (c :: (scan_number_loop true e (c2 :: rest)).1, (scan_number_loop true e (c2 :: rest)).2)
     else if (c = 101 ∨ c = 69) ∧ e = false then
       (if c2 = 43 ∨ c2 = 45 then
          (c :: c2 :: (scan_number_loop d true rest).1, (scan_number_loop d true rest).2)
        else
          (c :: (scan_number_loop d true (c2 :: rest)).1, (scan_number_loop d true (c2 :: rest)).2))
     else ([], c :: c2 :: rest)) := rfl

theorem scan_number_loop_append :
    ∀ (hasDot hasExp : Bool) (input : List Nat),
      (scan_number_loop hasDot hasExp input).1 ++
        (scan_number_loop hasDot hasExp input).2 = input
  | d, e, [] => by simp [scan_number_loop_nil]
  | d, e, [c] => by
    rw [scan_number_loop_one]
    split
    · simp
    · split
      · simp
      · split <;> simp
  | d, e, c :: c2 :: rest => by
    rw [scan_number_loop_cons2]
    split
    · simpa using scan_number_loop_append d e (c2 :: rest)
    · split
      · simpa using scan_number_loop_append true e (c2 :: rest)
      · split
        · split
          · simpa using scan_number_loop_append d true rest
          · simpa using scan_number_loop_append d true (c2 :: rest)
        · simp

theorem scan_number_loop_ne_nl :
    ∀ (hasDot hasExp : Bool) (input : List Nat),
      ∀ b ∈ (scan_number_loop hasDot hasExp input).1, b ≠ 10
  | d, e, [] => by simp [scan_number_loop_nil]
  | d, e, [c] => by
    rw [scan_number_loop_one]
    split
    · rename_i h; have := (is_digit_iff c).mp h; simp; omega
    · split
      · rename_i h; simp; omega
      · split
        · rename_i h; rcases h.1 with rfl | rfl <;> simp
        · simp
  | d, e, c :: c2 :: rest => by
    rw [scan_number_loop_cons2]
    split
    · rename_i h
      have hc := (is_digit_iff c).mp h
      intro b hb
      rcases List.mem_cons.mp (by simpa using hb) with h2 | h2
      · omega
      · exact scan_number_loop_ne_nl d e (c2 :: rest) b h2
    · split
      · rename_i h
        intro b hb
        rcases List.mem_cons.mp (by simpa using hb) with h2 | h2
        · omega
        · exact scan_number_loop_ne_nl true e (c2 :: rest) b h2
      · split
        · rename_i h
          split
          · rename_i hs
            intro b hb
            have hb2 : b = c ∨ b = c2 ∨ b ∈ (scan_number_loop d true rest).1 := by
              simpa using hb
            rcases hb2 with h2 | h2 | h2
            · rcases h.1 with rfl | rfl <;> omega
            · rcases hs with rfl | rfl <;> omega
            · exact scan_number_loop_ne_nl d true rest b h2
          · intro b hb
            have hb2 : b = c ∨ b ∈ (scan_number_loop d true (c2 :: rest)).1 := by
              simpa using hb
            rcases hb2 with h2 | h2
            · rcases h.1 with rfl | rfl <;> omega
            · exact scan_number_loop_ne_nl d true (c2 :: rest) b h2
        · simp

/-! ### String-scan loop lemmas -/

/-- Unfolding equation for `scan_string_loop` on the empty list. -/
theorem scan_string_loop_nil (q line col : Nat) :
    scan_string_loop q [] line col = ([], [], line, col) := rfl

/-- Unfolding equation for `scan_string_loop` on a single byte. -/
theorem scan_string_loop_one (q c line col : Nat) :
    scan_string_loop q [c] line col =
    (if c = q then ([c], [], line, col + 1)
     else if c = 10 then ([c], [], line + 1, 1)
     else ([c], [], line, col + 1)) := rfl

/-- Unfolding equation for `scan_string_loop` on two or more bytes. -/
theorem scan_string_loop_cons2 (q c c2 line col : Nat) (rest : List Nat) :
    scan_string_loop q (c :: c2 :: rest) line col =
    (if c = q then
       (if c2 = q then
          (c :: c2 :: (scan_string_loop q rest line (col + 2)).1,
           (scan_string_loop q rest line (col + 2)).2.1,
           (scan_string_loop q rest line (col + 2)).2.2.1,
           (scan_string_loop q rest line (col + 2)).2.2.2)
        else ([c], c2 :: rest, line, col + 1))
     else if c = 10 then
       (c :: (scan_string_loop q (c2 :: rest) (line + 1) 1).1,
        (scan_string_loop q (c2 :: rest) (line + 1) 1).2.1,
        (scan_string_loop q (c2 :: rest) (line + 1) 1).2.2.1,
        (scan_string_loop q (c2 :: rest) (line + 1) 1).2.2.2)
     else
       (c :: (scan_string_loop q (c2 :: rest) line (col + 1)).1,
        (scan_string_loop q (c2 :: rest) line (col + 1)).2.1,
        (scan_string_loop q (c2 :: rest) line (col + 1)).2.2.1,
        (scan_string_loop q (c2 :: rest) line (col + 1)).2.2.2)) := rfl

theorem scan_string_loop_append :
    ∀ (q : Nat) (input : List Nat) (line col : Nat),
      (scan_string_loop q input line col).1 ++
        (scan_string_loop q input line col).2.1 = input
  | q, [], line, col => by simp [scan_string_loop_nil]
  | q, [c], line, col => by
    rw [scan_string_loop_one]
    split
    · simp
    · split <;> simp
  | q, c :: c2 :: rest, line, col => by
    rw [scan_string_loop_cons2]
    split
    · split
      · simpa using scan_string_loop_append q rest line (col + 2)
      · simp
    · split
      · simpa using scan_string_loop_append q (c2 :: rest) (line + 1) 1
      · simpa using scan_string_loop_append q (c2 :: rest) line (col + 1)

theorem scan_string_loop_position :
    ∀ (q : Nat), q ≠ 10 → ∀ (input : List Nat) (line col : Nat),
      update_position (scan_string_loop q input line col).1 line col =
        ((scan_string_loop q input line col).2.2.1,
         (scan_string_loop q input line col).2.2.2)
  | q, hq, [], line, col => by simp [scan_string_loop_nil, update_position]
  | q, hq, [c], line, col => by
    rw [scan_string_loop_one]
    split
    · rename_i h; subst h; simp [update_position, hq]
    · split
      · rename_i h _; subst_vars; simp [update_position]
      · rename_i h h2; simp [update_position, h2]
  | q, hq, c :: c2 :: rest, line, col => by
    rw [scan_string_loop_cons2]
    split
    · rename_i h
      have hc : c ≠ 10 := by rw [h]; exact hq
      split
      · rename_i h2
        have hc2 : c2 ≠ 10 := by rw [h2]; exact hq
        have ih := scan_string_loop_position q hq rest line (col + 2)
        simpa [update_position, hc, hc2] using ih
      · simp [update_position, hc]
    · rename_i h
      split
      · rename_i h2
        have ih := scan_string_loop_position q hq (c2 :: rest) (line + 1) 1
        simpa [update_position, h2] using ih
      · rename_i h2
        have ih := scan_string_loop_position q hq (c2 :: rest) line (col + 1)
        simpa [update_position, h2] using ih

/-! ### Line-comment loop lemmas -/

/-- Unfolding equation for `scan_line_comment_loop` on the empty list. -/
theorem scan_line_comment_loop_nil (line col : Nat) :
    scan_line_comment_loop [] line col = ([], [], line, col) := rfl

/-- Unfolding equation for `scan_line_comment_loop` on a nonempty list. -/
theorem scan_line_comment_loop_cons (c line col : Nat) (rest : List Nat) :
    scan_line_comment_loop (c :: rest) line col =
    (if c = 10 then ([c], rest, line + 1, 1)
     else
       (c :: (scan_line_comment_loop rest line (col + 1)).1,
        (scan_line_comment_loop rest line (col + 1)).2.1,
        (scan_line_comment_loop rest line (col + 1)).2.2.1,
        (scan_line_comment_loop rest line (col + 1)).2.2.2)) := rfl

theorem scan_line_comment_loop_append :
    ∀ (input : List Nat) (line col : Nat),
      (scan_line_comment_loop input line col).1 ++
        (scan_line_comment_loop input line col).2.1 = input
  | [], line, col => by simp [scan_line_comment_loop_nil]
  | c :: rest, line, col => by
    rw [scan_line_comment_loop_cons]
    split
    · simp
    · simpa using scan_line_comment_loop_append rest line (col + 1)

theorem scan_line_comment_loop_position :
    ∀ (input : List Nat) (line col : Nat),
      update_position (scan_line_comment_loop input line col).1 line col =
        ((scan_line_comment_loop input line col).2.2.1,
         (scan_line_comment_loop input line col).2.2.2)
  | [], line, col => by simp [scan_line_comment_loop_nil, update_position]
  | c :: rest, line, col => by
    rw [scan_line_comment_loop_cons]
    split
    · rename_i h; subst h; simp [update_position]
    · rename_i h
      have ih := scan_line_comment_loop_position rest line (col + 1)
      simpa [update_position, h] using ih

/-! ### Block-comment loop lemmas -/

/-- Unfolding equation for `scan_block_comment_loop` on the empty list. -/
theorem scan_block_comment_loop_nil (line col : Nat) :
    scan_block_comment_loop [] line col = ([], [], line, col) := rfl

/-- Unfolding equation for `scan_block_comment_loop` on a single byte
(the C++ loop condition `position_ + 1 < input_size_` fails, so the byte
is left unconsumed). -/
theorem scan_block_comment_loop_one (c line col : Nat) :
    scan_block_comment_loop [c] line col = ([], [c], line, col) := rfl

/-- Unfolding equation for `scan_block_comment_loop` on two or more bytes. -/
theorem scan_block_comment_loop_cons2 (c1 c2 line col : Nat) (rest : List Nat) :
    scan_block_comment_loop (c1 :: c2 :: rest) line col =
    (if c1 = 42 ∧ c2 = 47 then ([c1, c2], rest, line, col + 2)
     else if c1 = 10 then
       (c1 :: (scan_block_comment_loop (c2 :: rest) (line + 1) 1).1,
        (scan_block_comment_loop (c2 :: rest) (line + 1) 1).2.1,
        (scan_block_comment_loop (c2 :: rest) (line + 1) 1).2.2.1,
        (scan_block_comment_loop (c2 :: rest) (line + 1) 1).2.2.2)
     else
       (c1 :: (scan_block_comment_loop (c2 :: rest) line (col + 1)).1,
        (scan_block_comment_loop (c2 :: rest) line (col + 1)).2.1,
        (scan_block_comment_loop (c2 :: rest) line (col + 1)).2.2.1,
        (scan_block_comment_loop (c2 :: rest) line (col + 1)).2.2.2)) := rfl

theorem scan_block_comment_loop_append :
    ∀ (input : List Nat) (line col : Nat),
      (scan_block_comment_loop input line col).1 ++
        (scan_block_comment_loop input line col).2.1 = input
  | [], line, col => by simp [scan_block_comment_loop_nil]
  | [c], line, col => by simp [scan_block_comment_loop_one]
  | c1 :: c2 :: rest, line, col => by
    rw [scan_block_comment_loop_cons2]
    split
    · simp
    · split
      · simpa using scan_block_comment_loop_append (c2 :: rest) (line + 1) 1
      · simpa using scan_block_comment_loop_append (c2 :: rest) line (col + 1)

theorem scan_block_comment_loop_position :
    ∀ (input : List Nat) (line col : Nat),
      update_position (scan_block_comment_loop input line col).1 line col =
        ((scan_block_comment_loop input line col).2.2.1,
         (scan_block_comment_loop input line col).2.2.2)
  | [], line, col => by simp [scan_block_comment_loop_nil, update_position]
  | [c], line, col => by simp [scan_block_comment_loop_one, update_position]
  | c1 :: c2 :: rest, line, col => by
    rw [scan_block_comment_loop_cons2]
    split
    · rename_i h
      obtain ⟨rfl, rfl⟩ := h
      simp [update_position]
    · split
      · rename_i h h2; subst h2
        have ih := scan_block_comment_loop_position (c2 :: rest) (line + 1) 1
        simpa [update_position] using ih
      · rename_i h h2
        have ih := scan_block_comment_loop_position (c2 :: rest) line (col + 1)
        simpa [update_position, h2] using ih

/-! ### Operator-pair facts -/

theorem op_pair_ne_nl {c c2 : Nat} (h : op_pair c c2 = true) : c2 ≠ 10 := by
  simp only [op_pair, Bool.or_eq_true, Bool.and_eq_true, beq_iff_eq] at h
  omega

theorem op_pair_first {c c2 : Nat} (h : op_pair c c2 = true) :
    c = 60 ∨ c = 62 ∨ c = 33 ∨ c = 61 ∨ c = 124 ∨ c = 38 ∨ c = 58 := by
  simp only [op_pair, Bool.or_eq_true, Bool.and_eq_true, beq_iff_eq] at h
  omega

/-! ### Unfolding equations for the scan wrappers and `next_token` -/

theorem scan_identifier_or_keyword_def (dict : KeywordDict) (rem : List Nat)
    (pos line col : Nat) :
    scan_identifier_or_keyword dict rem pos line col =
      (⟨if (if dict.find_keyword (scan_ident_loop rem).1 = 0 ∧
              (scan_ident_loop rem).1.length ≤ 32 then
            dict.find_keyword_simd (scan_ident_loop rem).1
          else dict.find_keyword (scan_ident_loop rem).1) ≠ 0 then
          TokenType.Keyword
        else TokenType.Identifier,
        (scan_ident_loop rem).1,
        if dict.find_keyword (scan_ident_loop rem).1 = 0 ∧
            (scan_ident_loop rem).1.length ≤ 32 then
          dict.find_keyword_simd (scan_ident_loop rem).1
        else dict.find_keyword (scan_ident_loop rem).1,
        line, col, pos⟩,
       (scan_ident_loop rem).2, line, col + (scan_ident_loop rem).1.length) := rfl

theorem scan_number_def (rem : List Nat) (pos line col : Nat) :
    scan_number rem pos line col =
      (⟨TokenType.Number, (scan_number_loop false false rem).1, 0, line, col, pos⟩,
       (scan_number_loop false false rem).2, line,
       col + (scan_number_loop false false rem).1.length) := rfl

theorem scan_string_cons (q c : Nat) (rest : List Nat) (pos line col : Nat) :
    scan_string q (c :: rest) pos line col =
      (⟨TokenType.String, c :: (scan_string_loop q rest line (col + 1)).1, 0,
        line, col, pos⟩,
       (scan_string_loop q rest line (col + 1)).2.1,
       (scan_string_loop q rest line (col + 1)).2.2.1,
       (scan_string_loop q rest line (col + 1)).2.2.2) := rfl

theorem scan_comment_cons2 (c1 c2 : Nat) (rest : List Nat) (pos line col : Nat) :
    scan_comment (c1 :: c2 :: rest) pos line col =
      (⟨TokenType.Comment,
        c1 :: c2 :: (scan_line_comment_loop rest line (col + 2)).1, 0,
        line, col, pos⟩,
       (scan_line_comment_loop rest line (col + 2)).2.1,
       (scan_line_comment_loop rest line (col + 2)).2.2.1,
       (scan_line_comment_loop rest line (col + 2)).2.2.2) := rfl

theorem scan_block_comment_cons2 (c1 c2 : Nat) (rest : List Nat)
    (pos line col : Nat) :
    scan_block_comment (c1 :: c2 :: rest) pos line col =
      (⟨TokenType.Comment,
        c1 :: c2 :: (scan_block_comment_loop rest line (col + 2)).1, 0,
        line, col, pos⟩,
       (scan_block_comment_loop rest line (col + 2)).2.1,
       (scan_block_comment_loop rest line (col + 2)).2.2.1,
       (scan_block_comment_loop rest line (col + 2)).2.2.2) := rfl

theorem scan_operator_one (c : Nat) (pos line col : Nat) :
    scan_operator_or_delimiter [c] pos line col =
      (⟨if is_delimiter c then TokenType.Delimiter else TokenType.Operator,
        [c], 0, line, col, pos⟩, [], line, col + 1) := rfl

theorem scan_operator_cons2 (c c2 : Nat) (rest2 : List Nat) (pos line col : Nat) :
    scan_operator_or_delimiter (c :: c2 :: rest2) pos line col =
      (if op_pair c c2 then
        (⟨if is_delimiter c then TokenType.Delimiter else TokenType.Operator,
          [c, c2], 0, line, col, pos⟩, rest2, line, col + 2)
       else
        (⟨if is_delimiter c then TokenType.Delimiter else TokenType.Operator,
          [c], 0, line, col, pos⟩, c2 :: rest2, line, col + 1)) := rfl

theorem next_token_cons (dict : KeywordDict) (c : Nat) (rest : List Nat)
    (pos line col : Nat) :
    next_token dict (c :: rest) pos line col =
      (if is_identifier_start c then
        scan_identifier_or_keyword dict (c :: rest) pos line col
      else if is_digit c then
        scan_number (c :: rest) pos line col
      else if is_quote c then
        scan_string c (c :: rest) pos line col
      else if c = 45 ∧ rest.head? = some 45 then
        scan_comment (c :: rest) pos line col
      else if c = 47 ∧ rest.head? = some 42 then
        scan_block_comment (c :: rest) pos line col
      else
        scan_operator_or_delimiter (c :: rest) pos line col) := rfl

theorem scan_number_loop_digit_cons (d e : Bool) {c : Nat} (rest : List Nat)
    (h : is_digit c = true) :
    ∃ v, (scan_number_loop d e (c :: rest)).1 = c :: v := by
  cases rest with
  | nil => rw [scan_number_loop_one]; exact ⟨[], by simp [h]⟩
  | cons c2 rest2 =>
    rw [scan_number_loop_cons2]
    exact ⟨(scan_number_loop d e (c2 :: rest2)).1, by simp [h]⟩

/-! ### The combined `next_token` specification

Whenever `next_token` is applied to a nonempty remainder it consumes a
nonempty prefix of it (the token's `value`), returns exactly the
unconsumed suffix, records the entry line/column/offset in the token,
never produces `Whitespace` or `EndOfFile`, and (when the first byte is
not whitespace, as guaranteed by the whitespace skip in `tokenize`)
advances line/column exactly as the byte-walk `update_position` would
over the consumed bytes. -/

theorem next_token_spec (dict : KeywordDict) (c : Nat) (rest : List Nat)
    (pos line col : Nat) (tok : Token) (r : List Nat) (l2 k2 : Nat)
    (hE : next_token dict (c :: rest) pos line col = (tok, r, l2, k2)) :
    tok.value ++ r = c :: rest ∧ tok.value ≠ [] ∧
    tok.line = line ∧ tok.column = col ∧ tok.start = pos ∧
    tok.type ≠ TokenType.Whitespace ∧ tok.type ≠ TokenType.EndOfFile ∧
    (is_whitespace c = false → update_position tok.value line col = (l2, k2)) := by
  rw [next_token_cons] at hE
  by_cases h1 : is_identifier_start c = true
  · rw [if_pos h1, scan_identifier_or_keyword_def] at hE
    simp only [Prod.mk.injEq] at hE
    obtain ⟨htok, hr, hl2, hk2⟩ := hE
    subst htok hr hl2 hk2
    have hcons := scan_ident_loop_cons rest (is_identifier_start_cont h1)
    refine ⟨scan_ident_loop_append (c :: rest), ?_, rfl, rfl, rfl, ?_, ?_, ?_⟩
    · rw [hcons]; simp
    · split <;> split <;> simp
    · split <;> split <;> simp
    · intro _
      exact update_position_no_nl _ line col
        (fun b hb => is_identifier_cont_ne_nl (scan_ident_loop_mem (c :: rest) b hb))
  · rw [if_neg h1] at hE
    by_cases h2 : is_digit c = true
    · rw [if_pos h2, scan_number_def] at hE
      simp only [Prod.mk.injEq] at hE
      obtain ⟨htok, hr, hl2, hk2⟩ := hE
      subst htok hr hl2 hk2
      obtain ⟨v, hv⟩ := scan_number_loop_digit_cons false false rest h2
      refine ⟨scan_number_loop_append false false (c :: rest), ?_, rfl, rfl, rfl,
        by simp, by simp, ?_⟩
      · rw [hv]; simp
      · intro _
        exact update_position_no_nl _ line col
          (scan_number_loop_ne_nl false false (c :: rest))
    · rw [if_neg h2] at hE
      by_cases h3 : is_quote c = true
      · rw [if_pos h3, scan_string_cons] at hE
        simp only [Prod.mk.injEq] at hE
        obtain ⟨htok, hr, hl2, hk2⟩ := hE
        subst htok hr hl2 hk2
        have hq : c ≠ 10 := by
          rcases (is_quote_iff c).mp h3 with rfl | rfl <;> omega
        refine ⟨?_, by simp, rfl, rfl, rfl, by simp, by simp, ?_⟩
        · simpa using scan_string_loop_append c rest line (col + 1)
        · intro _
          have := scan_string_loop_position c hq rest line (col + 1)
          simpa [update_position, hq] using this
      · rw [if_neg h3] at hE
        by_cases h4 : c = 45 ∧ rest.head? = some 45
        · rw [if_pos h4] at hE
          cases rest with
          | nil => simp at h4
          | cons c2 rest2 =>
            obtain ⟨rfl, hc2⟩ := h4
            have hc2' : c2 = 45 := by simpa using hc2
            subst hc2'
            rw [scan_comment_cons2] at hE
            simp only [Prod.mk.injEq] at hE
            obtain ⟨htok, hr, hl2, hk2⟩ := hE
            subst htok hr hl2 hk2
            refine ⟨?_, by simp, rfl, rfl, rfl, by simp, by simp, ?_⟩
            · simpa using scan_line_comment_loop_append rest2 line (col + 2)
            · intro _
              have := scan_line_comment_loop_position rest2 line (col + 2)
              simpa [update_position] using this
        · rw [if_neg h4] at hE
          by_cases h5 : c = 47 ∧ rest.head? = some 42
          · rw [if_pos h5] at hE
            cases rest with
            | nil => simp at h5
            | cons c2 rest2 =>
              obtain ⟨rfl, hc2⟩ := h5
              have hc2' : c2 = 42 := by simpa using hc2
              subst hc2'
              rw [scan_block_comment_cons2] at hE
              simp only [Prod.mk.injEq] at hE
              obtain ⟨htok, hr, hl2, hk2⟩ := hE
              subst htok hr hl2 hk2
              refine ⟨?_, by simp, rfl, rfl, rfl, by simp, by simp, ?_⟩
              · simpa using scan_block_comment_loop_append rest2 line (col + 2)
              · intro _
                have := scan_block_comment_loop_position rest2 line (col + 2)
                simpa [update_position] using this
          · rw [if_neg h5] at hE
            have hc10 : is_whitespace c = false → c ≠ 10 := by
              intro hws h10
              subst h10
              rw [is_whitespace_ten] at hws
              cases hws
            cases rest with
            | nil =>
              rw [scan_operator_one] at hE
              simp only [Prod.mk.injEq] at hE
              obtain ⟨htok, hr, hl2, hk2⟩ := hE
              subst htok hr hl2 hk2
              refine ⟨by simp, by simp, rfl, rfl, rfl, by split <;> simp,
                by split <;> simp, ?_⟩
              intro hws
              simp [update_position, hc10 hws]
            | cons c2 rest2 =>
              rw [scan_operator_cons2] at hE
              by_cases hop : op_pair c c2 = true
              · rw [if_pos hop] at hE
                simp only [Prod.mk.injEq] at hE
                obtain ⟨htok, hr, hl2, hk2⟩ := hE
                subst htok hr hl2 hk2
                refine ⟨by simp, by simp, rfl, rfl, rfl, by split <;> simp,
                  by split <;> simp, ?_⟩
                intro hws
                simp [update_position, hc10 hws, op_pair_ne_nl hop]
              · rw [if_neg hop] at hE
                simp only [Prod.mk.injEq] at hE
                obtain ⟨htok, hr, hl2, hk2⟩ := hE
                subst htok hr hl2 hk2
                refine ⟨by simp, by simp, rfl, rfl, rfl, by split <;> simp,
                  by split <;> simp, ?_⟩
                intro hws
                simp [update_position, hc10 hws]

/-! ### The tokenize loop -/

/-- Interleave whitespace gaps with token values: with `n + 1` gaps and
`n` values this is `g0 ++ v0 ++ g1 ++ v1 ++ ... ++ gn`. -/
def interleave : List (List Nat) → List (List Nat) → List Nat
  | gaps, [] => gaps.flatten
  | [], v :: vs => v ++ interleave [] vs
  | g :: gaps, v :: vs => g ++ v ++ interleave gaps vs

theorem interleave_nil (gaps : List (List Nat)) :
    interleave gaps [] = gaps.flatten := by
  cases gaps <;> rfl

theorem interleave_cons (g : List Nat) (gaps : List (List Nat))
    (v : List Nat) (vs : List (List Nat)) :
    interleave (g :: gaps) (v :: vs) = g ++ v ++ interleave gaps vs := rfl

theorem tokenize_go_nil (dict : KeywordDict) (fuel pos line col : Nat) :
    tokenize_go dict fuel [] pos line col = [] := by
  cases fuel with
  | zero => rfl
  | succ fuel => rw [tokenize_go.eq_2]; rfl

/-- One-step equation for the loop when the whitespace skip exhausts the
remainder: no token is produced. -/
theorem tokenize_go_stop (dict : KeywordDict) (fuel : Nat) (rem : List Nat)
    (pos line col : Nat)
    (hD : rem.drop (skip_whitespace rem) = []) :
    tokenize_go dict (fuel + 1) rem pos line col = [] := by
  rw [tokenize_go.eq_2]
  split
  split
  · rfl
  · rename_i c rest hD2
    rw [hD] at hD2
    cases hD2

/-- One-step equation for the loop when a byte remains after the
whitespace skip: `next_token` produces one (non-whitespace, non-EOF)
token and the loop continues on the rest. -/
theorem tokenize_go_step (dict : KeywordDict) (fuel : Nat) (rem : List Nat)
    (pos line col line1 col1 : Nat) (c : Nat) (rest : List Nat)
    (tok : Token) (r : List Nat) (l2 k2 : Nat)
    (hU : update_position (rem.take (skip_whitespace rem)) line col = (line1, col1))
    (hD : rem.drop (skip_whitespace rem) = c :: rest)
    (hN : next_token dict (c :: rest) (pos + skip_whitespace rem) line1 col1 =
      (tok, r, l2, k2))
    (hW : tok.type ≠ TokenType.Whitespace)
    (hEOF : tok.type ≠ TokenType.EndOfFile) :
    tokenize_go dict (fuel + 1) rem pos line col =
      tok :: tokenize_go dict fuel r
        (pos + skip_whitespace rem + tok.value.length) l2 k2 := by
  rw [tokenize_go.eq_2]
  split
  rename_i line1' col1' hU2
  rw [hU] at hU2
  obtain ⟨rfl, rfl⟩ := Prod.mk.injEq .. ▸ hU2
  split
  · rename_i hD2
    rw [hD] at hD2
    cases hD2
  · rename_i c' rest' hD2
    rw [hD] at hD2
    obtain ⟨rfl, rfl⟩ : c = c' ∧ rest = rest' := by
      cases hD2; exact ⟨rfl, rfl⟩
    split
    rename_i tok' r' l2' k2' hN2
    rw [hN] at hN2
    obtain ⟨rfl, rfl, rfl, rfl⟩ : tok = tok' ∧ r = r' ∧ l2 = l2' ∧ k2 = k2' := by
      cases hN2; exact ⟨rfl, rfl, rfl, rfl⟩
    simp only [if_neg hW, if_neg hEOF]

/-- No token emitted by the loop is `Whitespace` or `EndOfFile`. -/
theorem tokenize_go_types (dict : KeywordDict) :
    ∀ (fuel : Nat) (rem : List Nat) (pos line col : Nat),
      ∀ t ∈ tokenize_go dict fuel rem pos line col,
        t.type ≠ TokenType.Whitespace ∧ t.type ≠ TokenType.EndOfFile := by
  intro fuel
  induction fuel with
  | zero => intro rem pos line col t ht; simp [tokenize_go] at ht
  | succ fuel ih =>
    intro rem pos line col t ht
    rcases hU : update_position (rem.take (skip_whitespace rem)) line col with
      ⟨line1, col1⟩
    rcases hD : rem.drop (skip_whitespace rem) with _ | ⟨c, rest⟩
    · rw [tokenize_go_stop dict fuel rem pos line col hD] at ht
      simp at ht
    · rcases hN : next_token dict (c :: rest) (pos + skip_whitespace rem) line1 col1 with
        ⟨tok, r, l2, k2⟩
      obtain ⟨_, _, _, _, _, hW, hEOF, _⟩ :=
        next_token_spec dict c rest _ line1 col1 tok r l2 k2 hN
      rw [tokenize_go_step dict fuel rem pos line col line1 col1 c rest tok r l2 k2
        hU hD hN hW hEOF] at ht
      rcases List.mem_cons.mp ht with rfl | hmem
      · exact ⟨hW, hEOF⟩
      · exact ih _ _ _ _ t hmem

/-- Every token's recorded start offset is at least the entry offset, and
start offsets are strictly increasing along the output. -/
theorem tokenize_go_starts (dict : KeywordDict) :
    ∀ (fuel : Nat) (rem : List Nat) (pos line col : Nat),
      (∀ t ∈ tokenize_go dict fuel rem pos line col, pos ≤ t.start) ∧
      List.Chain' (fun a b => a.start < b.start)
        (tokenize_go dict fuel rem pos line col) := by
  intro fuel
  induction fuel with
  | zero => intro rem pos line col; simp [tokenize_go]
  | succ fuel ih =>
    intro rem pos line col
    rcases hU : update_position (rem.take (skip_whitespace rem)) line col with
      ⟨line1, col1⟩
    rcases hD : rem.drop (skip_whitespace rem) with _ | ⟨c, rest⟩
    · rw [tokenize_go_stop dict fuel rem pos line col hD]
      simp
    · rcases hN : next_token dict (c :: rest) (pos + skip_whitespace rem) line1 col1 with
        ⟨tok, r, l2, k2⟩
      obtain ⟨happ, hne, _, _, hstart, hW, hEOF, _⟩ :=
        next_token_spec dict c rest _ line1 col1 tok r l2 k2 hN
      rw [tokenize_go_step dict fuel rem pos line col line1 col1 c rest tok r l2 k2
        hU hD hN hW hEOF]
      have hlen1 : 1 ≤ tok.value.length := by
        cases hv : tok.value with
        | nil => exact absurd hv hne
        | cons a l => simp
      obtain ⟨ihmem, ihchain⟩ :=
        ih r (pos + skip_whitespace rem + tok.value.length) l2 k2
      constructor
      · intro t ht
        rcases List.mem_cons.mp ht with rfl | hmem
        · rw [hstart]; omega
        · have := ihmem t hmem; omega
      · rw [List.chain'_cons']
        refine ⟨?_, ihchain⟩
        intro b hb
        have hbmem : b ∈ tokenize_go dict fuel r
            (pos + skip_whitespace rem + tok.value.length) l2 k2 :=
          List.mem_of_mem_head? hb
        have := ihmem b hbmem
        rw [hstart]
        omega

/-- Coverage: the emitted token values, interleaved with the whitespace
gaps the loop skipped, reconstitute the remaining input exactly. -/
theorem tokenize_go_coverage (dict : KeywordDict) :
    ∀ (fuel : Nat) (rem : List Nat) (pos line col : Nat), rem.length ≤ fuel →
      ∃ gaps : List (List Nat),
        gaps.length = (tokenize_go dict fuel rem pos line col).length + 1 ∧
        (∀ g ∈ gaps, ∀ b ∈ g, is_whitespace b = true) ∧
        interleave gaps ((tokenize_go dict fuel rem pos line col).map Token.value) =
          rem := by
  intro fuel
  induction fuel with
  | zero =>
    intro rem pos line col hlen
    have hnil : rem = [] := List.eq_nil_of_length_eq_zero (Nat.le_zero.mp hlen)
    subst hnil
    exact ⟨[[]], by simp [tokenize_go], by simp, by simp [tokenize_go, interleave_nil]⟩
  | succ fuel ih =>
    intro rem pos line col hlen
    rcases hU : update_position (rem.take (skip_whitespace rem)) line col with
      ⟨line1, col1⟩
    rcases hD : rem.drop (skip_whitespace rem) with _ | ⟨c, rest⟩
    · rw [tokenize_go_stop dict fuel rem pos line col hD]
      have htake : rem.take (skip_whitespace rem) = rem := by
        have h2 := List.take_append_drop (skip_whitespace rem) rem
        rw [hD] at h2; simpa using h2
      refine ⟨[rem], by simp, ?_, by simp [interleave_nil]⟩
      intro g hg b hb
      simp only [List.mem_singleton] at hg
      rw [hg] at hb
      exact skip_whitespace_take rem b (by rw [htake]; exact hb)
    · rcases hN : next_token dict (c :: rest) (pos + skip_whitespace rem) line1 col1 with
        ⟨tok, r, l2, k2⟩
      obtain ⟨happ, hne, _, _, _, hW, hEOF, _⟩ :=
        next_token_spec dict c rest _ line1 col1 tok r l2 k2 hN
      rw [tokenize_go_step dict fuel rem pos line col line1 col1 c rest tok r l2 k2
        hU hD hN hW hEOF]
      have h2 := List.take_append_drop (skip_whitespace rem) rem
      have hlen1 : 1 ≤ tok.value.length := by
        cases hv : tok.value with
        | nil => exact absurd hv hne
        | cons a l => simp
      have hvr : tok.value.length + r.length = (c :: rest).length := by
        rw [← happ]; simp
      have hdroplen : (c :: rest).length ≤ rem.length := by
        conv_rhs => rw [← h2]
        rw [hD]
        simp
      have hr : r.length ≤ fuel := by
        simp only [List.length_cons] at hvr hdroplen
        omega
      obtain ⟨gaps, hglen, hgws, hgi⟩ :=
        ih r (pos + skip_whitespace rem + tok.value.length) l2 k2 hr
      refine ⟨rem.take (skip_whitespace rem) :: gaps, by simp [hglen], ?_, ?_⟩
      · intro g hg b hb
        rcases List.mem_cons.mp hg with rfl | hmem
        · exact skip_whitespace_take rem b hb
        · exact hgws g hmem b hb
      · rw [List.map_cons, interleave_cons, hgi]
        conv_rhs => rw [← h2]
        rw [hD, ← happ]
        simp

theorem take_len_append (a b : List Nat) (k : Nat) :
    (a ++ b).take (a.length + k) = a ++ b.take k := by
  induction a with
  | nil => simp
  | cons x xs ih =>
    simp only [List.length_cons, List.cons_append]
    rw [show xs.length + 1 + k = (xs.length + k) + 1 by omega]
    rw [List.take_succ_cons, ih]

/-- Position invariant of the loop: every emitted token starts at
`pos + k` for some `k` within the remainder, and its recorded
line/column are exactly what the byte-walk `update_position` computes
over the `k` bytes before it. -/
theorem tokenize_go_position (dict : KeywordDict) :
    ∀ (fuel : Nat) (rem : List Nat) (pos line col : Nat),
      ∀ t ∈ tokenize_go dict fuel rem pos line col,
        ∃ k, k ≤ rem.length ∧ t.start = pos + k ∧
          update_position (rem.take k) line col = (t.line, t.column) := by
  intro fuel
  induction fuel with
  | zero => intro rem pos line col t ht; simp [tokenize_go] at ht
  | succ fuel ih =>
    intro rem pos line col t ht
    rcases hU : update_position (rem.take (skip_whitespace rem)) line col with
      ⟨line1, col1⟩
    rcases hD : rem.drop (skip_whitespace rem) with _ | ⟨c, rest⟩
    · rw [tokenize_go_stop dict fuel rem pos line col hD] at ht
      simp at ht
    · rcases hN : next_token dict (c :: rest) (pos + skip_whitespace rem) line1 col1 with
        ⟨tok, r, l2, k2⟩
      obtain ⟨happ, hne, hline, hcol, hstart, hW, hEOF, hupd⟩ :=
        next_token_spec dict c rest _ line1 col1 tok r l2 k2 hN
      rw [tokenize_go_step dict fuel rem pos line col line1 col1 c rest tok r l2 k2
        hU hD hN hW hEOF] at ht
      have hws : is_whitespace c = false := skip_whitespace_drop_head rem c rest hD
      have hn_le : skip_whitespace rem ≤ rem.length := skip_whitespace_le rem
      have htake_len : (rem.take (skip_whitespace rem)).length = skip_whitespace rem := by
        rw [List.length_take]; omega
      rcases List.mem_cons.mp ht with rfl | hmem
      · exact ⟨skip_whitespace rem, hn_le, hstart, by rw [hline, hcol]; exact hU⟩
      · obtain ⟨k', hk'le, hk'start, hk'upd⟩ :=
          ih r (pos + skip_whitespace rem + tok.value.length) l2 k2 t hmem
        have h2 := List.take_append_drop (skip_whitespace rem) rem
        have hvr : tok.value.length + r.length = (c :: rest).length := by
          rw [← happ]; simp
        have hremlen : rem.length = skip_whitespace rem + (c :: rest).length := by
          conv_lhs => rw [← h2]
          rw [hD]
          simp [htake_len]
        refine ⟨skip_whitespace rem + tok.value.length + k', ?_, ?_, ?_⟩
        · simp only [List.length_cons] at hvr hremlen; omega
        · rw [hk'start]; omega
        · have hsplit : rem.take (skip_whitespace rem + tok.value.length + k') =
              rem.take (skip_whitespace rem) ++ tok.value ++ r.take k' := by
            rw [show skip_whitespace rem + tok.value.length + k' =
              skip_whitespace rem + (tok.value.length + k') by omega]
            rw [List.take_add, hD, ← happ, take_len_append]
            rw [List.append_assoc]
          rw [hsplit, update_position_append, update_position_append, hU]
          simp only []
          rw [hupd hws]
          simpa using hk'upd

/-- The loop's output does not depend on the fuel bound, as long as the
bound covers the remaining length: each iteration consumes at least one
byte, so the C++ `while` loop is reached exactly. -/
theorem tokenize_go_fuel (dict : KeywordDict) :
    ∀ (f1 : Nat) (rem : List Nat) (pos line col f2 : Nat),
      rem.length ≤ f1 → rem.length ≤ f2 →
      tokenize_go dict f1 rem pos line col = tokenize_go dict f2 rem pos line col := by
  intro f1
  induction f1 with
  | zero =>
    intro rem pos line col f2 h1 h2
    have hnil : rem = [] := List.eq_nil_of_length_eq_zero (Nat.le_zero.mp h1)
    subst hnil
    rw [tokenize_go_nil, tokenize_go_nil]
  | succ f1 ih =>
    intro rem pos line col f2 h1 h2
    cases f2 with
    | zero =>
      have hnil : rem = [] := List.eq_nil_of_length_eq_zero (Nat.le_zero.mp h2)
      subst hnil
      rw [tokenize_go_nil, tokenize_go_nil]
    | succ f2 =>
      rcases hU : update_position (rem.take (skip_whitespace rem)) line col with
        ⟨line1, col1⟩
      rcases hD : rem.drop (skip_whitespace rem) with _ | ⟨c, rest⟩
      · rw [tokenize_go_stop dict f1 rem pos line col hD,
            tokenize_go_stop dict f2 rem pos line col hD]
      · rcases hN : next_token dict (c :: rest) (pos + skip_whitespace rem) line1 col1 with
          ⟨tok, r, l2, k2⟩
        obtain ⟨happ, hne, _, _, _, hW, hEOF, _⟩ :=
          next_token_spec dict c rest _ line1 col1 tok r l2 k2 hN
        rw [tokenize_go_step dict f1 rem pos line col line1 col1 c rest tok r l2 k2
          hU hD hN hW hEOF,
          tokenize_go_step dict f2 rem pos line col line1 col1 c rest tok r l2 k2
          hU hD hN hW hEOF]
        have hlen1 : 1 ≤ tok.value.length := by
          cases hv : tok.value with
          | nil => exact absurd hv hne
          | cons a l => simp
        have h2t := List.take_append_drop (skip_whitespace rem) rem
        have hvr : tok.value.length + r.length = (c :: rest).length := by
          rw [← happ]; simp
        have hdroplen : (c :: rest).length ≤ rem.length := by
          conv_rhs => rw [← h2t]
          rw [hD]
          simp
        have hr1 : r.length ≤ f1 := by
          simp only [List.length_cons] at hvr hdroplen; omega
        have hr2 : r.length ≤ f2 := by
          simp only [List.length_cons] at hvr hdroplen; omega
        rw [ih r (pos + skip_whitespace rem + tok.value.length) l2 k2 f2 hr1 hr2]

/-! ### Characterising `update_position` from offset arithmetic -/

/-- Number of newline bytes in a byte list. -/
def count_nl (l : List Nat) : Nat := l.countP (fun b => b == 10)

/-- The 0-based offset of the last newline in `l`, or `-1` when `l` has
no newline. -/
def last_nl_offset (l : List Nat) : Int :=
  (l.length : Int) - 1 - ((l.reverse.takeWhile (fun b => b != 10)).length : Int)

theorem update_position_char (l : List Nat) :
    update_position l 1 1 =
      (1 + count_nl l, (l.reverse.takeWhile (fun b => b != 10)).length + 1) := by
  induction l using List.reverseRecOn with
  | nil => simp [update_position, count_nl]
  | append_singleton l b ih =>
    rw [update_position_append, ih]
    by_cases hb : b = 10
    · subst hb
      simp [update_position, count_nl, List.countP_append]
      omega
    · simp [update_position, count_nl, List.countP_append, hb,
        List.takeWhile_cons]

/-! ### Unterminated block comments -/

/-- Whether the byte list contains an adjacent `*/` (42, 47) pair. -/
def has_star_slash : List Nat → Bool
  | c1 :: c2 :: rest => (c1 == 42 && c2 == 47) || has_star_slash (c2 :: rest)
  | _ => false

theorem has_star_slash_nil : has_star_slash [] = false := rfl

theorem has_star_slash_one (c : Nat) : has_star_slash [c] = false := rfl

theorem has_star_slash_cons2 (c1 c2 : Nat) (rest : List Nat) :
    has_star_slash (c1 :: c2 :: rest) =
      ((c1 == 42 && c2 == 47) || has_star_slash (c2 :: rest)) := rfl

/-- When no `*/` occurs, the block-comment loop consumes every byte
except the last one (which the C++ loop guard `position_ + 1 <
input_size_` never reaches) and leaves that last byte unconsumed. -/
theorem scan_block_comment_loop_no_close :
    ∀ (input : List Nat) (line col : Nat), has_star_slash input = false →
      (scan_block_comment_loop input line col).1 = input.dropLast ∧
      (scan_block_comment_loop input line col).2.1 = input.drop (input.length - 1)
  | [], line, col, _ => by simp [scan_block_comment_loop_nil]
  | [c], line, col, _ => by simp [scan_block_comment_loop_one]
  | c1 :: c2 :: rest, line, col, h => by
    rw [has_star_slash_cons2] at h
    simp only [Bool.or_eq_false_iff, Bool.and_eq_false_iff] at h
    obtain ⟨hno, hrec⟩ := h
    have h1 : ¬(c1 = 42 ∧ c2 = 47) := by
      rintro ⟨rfl, rfl⟩
      rcases hno with hx | hx <;> simp at hx
    rw [scan_block_comment_loop_cons2, if_neg h1]
    by_cases h10 : c1 = 10
    · rw [if_pos h10]
      obtain ⟨ih1, ih2⟩ := scan_block_comment_loop_no_close (c2 :: rest) (line + 1) 1 hrec
      constructor
      · simp only [ih1]
        rfl
      · simp only [ih2]
        simp
    · rw [if_neg h10]
      obtain ⟨ih1, ih2⟩ := scan_block_comment_loop_no_close (c2 :: rest) line (col + 1) hrec
      constructor
      · simp only [ih1]
        rfl
      · simp only [ih2]
        simp

/-! ### The shape of number lexemes -/

/-- Modelled from the spec (§4.5.2), for comparison with `scan_number`:
a number lexeme is a sequence of digits (DIGIT class, bytes 48–57), at
most one decimal `.` — forbidden once the exponent has been seen — and
at most one exponent marker `e`/`E` optionally followed by a single
`+`/`-` immediately after it; no digit is required after the marker or
the sign.  `number_shape d e v = true` says `v` fits this shape given
that a dot (`d`) or exponent (`e`) has already been consumed. -/
def number_shape (hasDot hasExp : Bool) : List Nat → Bool
  | [] => true
  | c :: rest =>
    if 48 ≤ c ∧ c ≤ 57 then number_shape hasDot hasExp rest
    else if c = 46 ∧ hasDot = false ∧ hasExp = false then number_shape true hasExp rest
    else if (c = 101 ∨ c = 69) ∧ hasExp = false then
      match rest with
      | [] => true
      | c2 :: rest2 =>
        if c2 = 43 ∨ c2 = 45 then number_shape hasDot true rest2
        else number_shape hasDot true (c2 :: rest2)
    else false

theorem number_shape_nil (d e : Bool) : number_shape d e [] = true := rfl

theorem number_shape_one (d e : Bool) (c : Nat) : number_shape d e [c] =
    (if 48 ≤ c ∧ c ≤ 57 then true
     else if c = 46 ∧ d = false ∧ e = false then true
     else if (c = 101 ∨ c = 69) ∧ e = false then true
     else false) := rfl

theorem number_shape_cons2 (d e : Bool) (c c2 : Nat) (rest : List Nat) :
    number_shape d e (c :: c2 :: rest) =
    (if 48 ≤ c ∧ c ≤ 57 then number_shape d e (c2 :: rest)
     else if c = 46 ∧ d = false ∧ e = false then number_shape true e (c2 :: rest)
     else if (c = 101 ∨ c = 69) ∧ e = false then
       (if c2 = 43 ∨ c2 = 45 then number_shape d true rest
        else number_shape d true (c2 :: rest))
     else false) := rfl

/-- The value consumed by `scan_number_loop` on a nonempty input either
is empty or begins with the first input byte. -/
theorem scan_number_loop_head (d e : Bool) (c : Nat) (rest : List Nat) :
    (scan_number_loop d e (c :: rest)).1 = [] ∨
    ∃ t, (scan_number_loop d e (c :: rest)).1 = c :: t := by
  cases rest with
  | nil =>
    rw [scan_number_loop_one]
    split
    · exact Or.inr ⟨[], rfl⟩
    · split
      · exact Or.inr ⟨[], rfl⟩
      · split
        · exact Or.inr ⟨[], rfl⟩
        · exact Or.inl rfl
  | cons c2 rest2 =>
    rw [scan_number_loop_cons2]
    split
    · exact Or.inr ⟨_, rfl⟩
    · split
      · exact Or.inr ⟨_, rfl⟩
      · split
        · split
          · exact Or.inr ⟨_, rfl⟩
          · exact Or.inr ⟨_, rfl⟩
        · exact Or.inl rfl

/-- The value consumed by `scan_number_loop` fits the spec's number
shape. -/
theorem scan_number_loop_shape_true :
    ∀ (d e : Bool) (input : List Nat),
      number_shape d e (scan_number_loop d e input).1 = true
  | d, e, [] => by simp [scan_number_loop_nil, number_shape_nil]
  | d, e, [c] => by
    rw [scan_number_loop_one]
    split
    · show number_shape d e [c] = true
      rename_i h
      have hc := (is_digit_iff c).mp h
      rw [number_shape_one]; simp [hc]
    · split
      · show number_shape d e [c] = true
        rename_i hb h
        rw [number_shape_one]; simp [h]
      · split
        · show number_shape d e [c] = true
          rename_i hb hd h
          rw [number_shape_one]; simp [h]
        · show number_shape d e [] = true
          rw [number_shape_nil]
  | d, e, c :: c2 :: rest => by
    rw [scan_number_loop_cons2]
    split
    · rename_i h
      have hc := (is_digit_iff c).mp h
      show number_shape d e (c :: (scan_number_loop d e (c2 :: rest)).1) = true
      cases hv : (scan_number_loop d e (c2 :: rest)).1 with
      | nil => rw [number_shape_one]; simp [hc]
      | cons x xs =>
        rw [number_shape_cons2, if_pos hc, ← hv]
        exact scan_number_loop_shape_true d e (c2 :: rest)
    · split
      · rename_i hb h
        obtain ⟨rfl, rfl, rfl⟩ := h
        have hc : ¬(48 ≤ 46 ∧ 46 ≤ 57) := by omega
        show number_shape false false
          (46 :: (scan_number_loop true false (c2 :: rest)).1) = true
        cases hv : (scan_number_loop true false (c2 :: rest)).1 with
        | nil => rw [number_shape_one]; simp
        | cons x xs =>
          rw [number_shape_cons2, if_neg hc, if_pos ⟨rfl, rfl, rfl⟩, ← hv]
          exact scan_number_loop_shape_true true false (c2 :: rest)
      · split
        · rename_i hb hd h
          obtain ⟨hce, rfl⟩ := h
          have hc : ¬(48 ≤ c ∧ c ≤ 57) := fun hx => hb ((is_digit_iff c).mpr hx)
          split
          · rename_i hs
            show number_shape d false
              (c :: c2 :: (scan_number_loop d true rest).1) = true
            rw [number_shape_cons2, if_neg hc, if_neg hd, if_pos ⟨hce, rfl⟩,
              if_pos hs]
            exact scan_number_loop_shape_true d true rest
          · rename_i hs
            show number_shape d false
              (c :: (scan_number_loop d true (c2 :: rest)).1) = true
            cases hv : (scan_number_loop d true (c2 :: rest)).1 with
            | nil => rw [number_shape_one]; simp [hce]
            | cons x xs =>
              have hx : x = c2 := by
                rcases scan_number_loop_head d true c2 rest with h0 | ⟨t, ht⟩
                · rw [h0] at hv; cases hv
                · rw [ht] at hv; cases hv; rfl
              rw [hx] at hv
              rw [hx, number_shape_cons2, if_neg hc, if_neg hd, if_pos ⟨hce, rfl⟩,
                if_neg hs, ← hv]
              exact scan_number_loop_shape_true d true (c2 :: rest)
        · show number_shape d e [] = true
          rw [number_shape_nil]

/-- Greediness of `scan_number_loop`: appending the first unconsumed
byte to the consumed value breaks the spec's number shape. -/
theorem scan_number_loop_shape_max :
    ∀ (d e : Bool) (input : List Nat) (c' : Nat) (r' : List Nat),
      (scan_number_loop d e input).2 = c' :: r' →
      number_shape d e ((scan_number_loop d e input).1 ++ [c']) = false
  | d, e, [], c', r' => by
    intro hr
    simp [scan_number_loop_nil] at hr
  | d, e, [c], c', r' => by
    intro hr
    rw [scan_number_loop_one] at hr ⊢
    by_cases h1 : is_digit c = true
    · rw [if_pos h1] at hr; simp at hr
    · rw [if_neg h1] at hr ⊢
      by_cases h2 : c = 46 ∧ d = false ∧ e = false
      · rw [if_pos h2] at hr; simp at hr
      · rw [if_neg h2] at hr ⊢
        by_cases h3 : (c = 101 ∨ c = 69) ∧ e = false
        · rw [if_pos h3] at hr; simp at hr
        · rw [if_neg h3] at hr ⊢
          have hc : ¬(48 ≤ c ∧ c ≤ 57) := fun hx => h1 ((is_digit_iff c).mpr hx)
          obtain ⟨rfl, rfl⟩ : c = c' ∧ ([] : List Nat) = r' := by
            have h4 : [c] = c' :: r' := by simpa using hr
            cases h4; exact ⟨rfl, rfl⟩
          show number_shape d e ([] ++ [c]) = false
          rw [List.nil_append, number_shape_one]
          simp [hc, h2, h3]
  | d, e, c :: c2 :: rest, c', r' => by
    intro hr
    rw [scan_number_loop_cons2] at hr ⊢
    by_cases h1 : is_digit c = true
    · rw [if_pos h1] at hr ⊢
      have hc := (is_digit_iff c).mp h1
      have hr2 : (scan_number_loop d e (c2 :: rest)).2 = c' :: r' := by
        simpa using hr
      have ihx := scan_number_loop_shape_max d e (c2 :: rest) c' r' hr2
      show number_shape d e
        ((c :: (scan_number_loop d e (c2 :: rest)).1) ++ [c']) = false
      rw [List.cons_append]
      cases hv : (scan_number_loop d e (c2 :: rest)).1 with
      | nil =>
        rw [hv, List.nil_append] at ihx
        rw [List.nil_append, number_shape_cons2, if_pos hc]
        exact ihx
      | cons x xs =>
        rw [hv, List.cons_append] at ihx
        rw [List.cons_append, number_shape_cons2, if_pos hc]
        exact ihx
    · rw [if_neg h1] at hr ⊢
      by_cases h2 : c = 46 ∧ d = false ∧ e = false
      · rw [if_pos h2] at hr ⊢
        obtain ⟨rfl, rfl, rfl⟩ := h2
        have hc : ¬(48 ≤ 46 ∧ 46 ≤ 57) := by omega
        have hr2 : (scan_number_loop true false (c2 :: rest)).2 = c' :: r' := by
          simpa using hr
        have ihx := scan_number_loop_shape_max true false (c2 :: rest) c' r' hr2
        show number_shape false false
          ((46 :: (scan_number_loop true false (c2 :: rest)).1) ++ [c']) = false
        rw [List.cons_append]
        cases hv : (scan_number_loop true false (c2 :: rest)).1 with
        | nil =>
          rw [hv, List.nil_append] at ihx
          rw [List.nil_append, number_shape_cons2, if_neg hc,
            if_pos ⟨rfl, rfl, rfl⟩]
          exact ihx
        | cons x xs =>
          rw [hv, List.cons_append] at ihx
          rw [List.cons_append, number_shape_cons2, if_neg hc,
            if_pos ⟨rfl, rfl, rfl⟩]
          exact ihx
      · rw [if_neg h2] at hr ⊢
        by_cases h3 : (c = 101 ∨ c = 69) ∧ e = false
        · rw [if_pos h3] at hr ⊢
          obtain ⟨hce, rfl⟩ := h3
          have hc : ¬(48 ≤ c ∧ c ≤ 57) := fun hx => h1 ((is_digit_iff c).mpr hx)
          by_cases hs : c2 = 43 ∨ c2 = 45
          · rw [if_pos hs] at hr ⊢
            have hr2 : (scan_number_loop d true rest).2 = c' :: r' := by
              simpa using hr
            have ihx := scan_number_loop_shape_max d true rest c' r' hr2
            show number_shape d false
              ((c :: c2 :: (scan_number_loop d true rest).1) ++ [c']) = false
            rw [List.cons_append, List.cons_append, number_shape_cons2,
              if_neg hc, if_neg h2, if_pos ⟨hce, rfl⟩, if_pos hs]
            exact ihx
          · rw [if_neg hs] at hr ⊢
            have hr2 : (scan_number_loop d true (c2 :: rest)).2 = c' :: r' := by
              simpa using hr
            have ihx := scan_number_loop_shape_max d true (c2 :: rest) c' r' hr2
            show number_shape d false
              ((c :: (scan_number_loop d true (c2 :: rest)).1) ++ [c']) = false
            rw [List.cons_append]
            cases hv : (scan_number_loop d true (c2 :: rest)).1 with
            | nil =>
              have hr3 : c2 :: rest = c' :: r' := by
                have hap := scan_number_loop_append d true (c2 :: rest)
                rw [hv, List.nil_append] at hap
                rw [← hap]; exact hr2
              obtain ⟨rfl, rfl⟩ : c2 = c' ∧ rest = r' := by
                cases hr3; exact ⟨rfl, rfl⟩
              rw [hv, List.nil_append] at ihx
              rw [List.nil_append, number_shape_cons2, if_neg hc, if_neg h2,
                if_pos ⟨hce, rfl⟩, if_neg hs]
              exact ihx
            | cons x xs =>
              have hx : x = c2 := by
                rcases scan_number_loop_head d true c2 rest with h0 | ⟨t, ht⟩
                · rw [h0] at hv; cases hv
                · rw [ht] at hv; cases hv; rfl
              rw [hx] at hv
              rw [hx]
              rw [hv, List.cons_append] at ihx
              rw [List.cons_append, number_shape_cons2, if_neg hc, if_neg h2,
                if_pos ⟨hce, rfl⟩, if_neg hs]
              exact ihx
        · rw [if_neg h3] at hr ⊢
          have hc : ¬(48 ≤ c ∧ c ≤ 57) := fun hx => h1 ((is_digit_iff c).mpr hx)
          obtain ⟨rfl, _⟩ : c = c' ∧ c2 :: rest = r' := by
            have h4 : c :: c2 :: rest = c' :: r' := by simpa using hr
            cases h4; exact ⟨rfl, rfl⟩
          show number_shape d e ([] ++ [c]) = false
          rw [List.nil_append, number_shape_one]
          simp [hc, h2, h3]

/-! ### Behavioral lemmas for string scanning -/

/-- The bytes consumed and the rest returned by `scan_string_loop` do
not depend on the line/column counters. -/
theorem scan_string_loop_indep :
    ∀ (q : Nat) (input : List Nat) (l c l' c' : Nat),
      (scan_string_loop q input l c).1 = (scan_string_loop q input l' c').1 ∧
      (scan_string_loop q input l c).2.1 = (scan_string_loop q input l' c').2.1
  | q, [], l, c, l', c' => by simp [scan_string_loop_nil]
  | q, [x], l, c, l', c' => by
    rw [scan_string_loop_one, scan_string_loop_one]
    split
    · simp
    · split <;> simp
  | q, x :: x2 :: rest, l, c, l', c' => by
    rw [scan_string_loop_cons2, scan_string_loop_cons2]
    split
    · split
      · obtain ⟨h1, h2⟩ := scan_string_loop_indep q rest l (c + 2) l' (c' + 2)
        exact ⟨by show x :: x2 :: _ = x :: x2 :: _; rw [h1], h2⟩
      · simp
    · split
      · obtain ⟨h1, h2⟩ := scan_string_loop_indep q (x2 :: rest) (l + 1) 1 (l' + 1) 1
        exact ⟨by show x :: _ = x :: _; rw [h1], h2⟩
      · obtain ⟨h1, h2⟩ := scan_string_loop_indep q (x2 :: rest) l (c + 1) l' (c' + 1)
        exact ⟨by show x :: _ = x :: _; rw [h1], h2⟩

/-- A byte equal to the opening quote, not followed by another such
byte, terminates the string: everything before it is consumed, the
closing quote is included, and scanning stops right after it. -/
theorem scan_string_loop_term (q : Nat) (pre : List Nat) :
    ∀ (post : List Nat) (l c : Nat),
      (∀ b ∈ pre, b ≠ q) → post.head? ≠ some q →
      (scan_string_loop q (pre ++ q :: post) l c).1 = pre ++ [q] ∧
      (scan_string_loop q (pre ++ q :: post) l c).2.1 = post := by
  induction pre with
  | nil =>
    intro post l c _ hpost
    cases post with
    | nil => rw [List.nil_append, scan_string_loop_one]; simp
    | cons p ps =>
      have hp : ¬(p = q) := by
        intro h; exact hpost (by rw [h]; rfl)
      rw [List.nil_append, scan_string_loop_cons2, if_pos rfl, if_neg hp]
      simp
  | cons x pre ih =>
    intro post l c hpre hpost
    have hx : ¬(x = q) := hpre x (by simp)
    rcases hsplit : pre ++ q :: post with _ | ⟨y, ys⟩
    · exact absurd hsplit (by simp)
    · rw [List.cons_append, hsplit, scan_string_loop_cons2, if_neg hx]
      by_cases hx10 : x = 10
      · rw [if_pos hx10]
        obtain ⟨h1, h2⟩ := ih post (l + 1) 1 (fun b hb => hpre b (by simp [hb])) hpost
        rw [hsplit] at h1 h2
        constructor
        · show x :: (scan_string_loop q (y :: ys) (l + 1) 1).1 = x :: (pre ++ [q])
          rw [h1]
        · exact h2
      · rw [if_neg hx10]
        obtain ⟨h1, h2⟩ := ih post l (c + 1) (fun b hb => hpre b (by simp [hb])) hpost
        rw [hsplit] at h1 h2
        constructor
        · show x :: (scan_string_loop q (y :: ys) l (c + 1)).1 = x :: (pre ++ [q])
          rw [h1]
        · exact h2

/-- A doubled quote inside the literal is an escape: both bytes are
consumed and scanning continues after them. -/
theorem scan_string_loop_escape (q : Nat) (pre : List Nat) :
    ∀ (post : List Nat) (l c : Nat),
      (∀ b ∈ pre, b ≠ q) →
      (scan_string_loop q (pre ++ q :: q :: post) l c).1 =
        pre ++ q :: q :: (scan_string_loop q post l c).1 ∧
      (scan_string_loop q (pre ++ q :: q :: post) l c).2.1 =
        (scan_string_loop q post l c).2.1 := by
  induction pre with
  | nil =>
    intro post l c _
    rw [List.nil_append, scan_string_loop_cons2, if_pos rfl, if_pos rfl]
    obtain ⟨h1, h2⟩ := scan_string_loop_indep q post l (c + 2) l c
    constructor
    · show q :: q :: (scan_string_loop q post l (c + 2)).1 =
        q :: q :: (scan_string_loop q post l c).1
      rw [h1]
    · exact h2
  | cons x pre ih =>
    intro post l c hpre
    have hx : ¬(x = q) := hpre x (by simp)
    rcases hsplit : pre ++ q :: q :: post with _ | ⟨y, ys⟩
    · exact absurd hsplit (by simp)
    · rw [List.cons_append, hsplit, scan_string_loop_cons2, if_neg hx]
      by_cases hx10 : x = 10
      · rw [if_pos hx10]
        obtain ⟨h1, h2⟩ := ih post (l + 1) 1 (fun b hb => hpre b (by simp [hb]))
        rw [hsplit] at h1 h2
        obtain ⟨h3, h4⟩ := scan_string_loop_indep q post (l + 1) 1 l c
        constructor
        · show x :: (scan_string_loop q (y :: ys) (l + 1) 1).1 =
            x :: (pre ++ q :: q :: (scan_string_loop q post l c).1)
          rw [h1, h3]
        · rw [← h4]; exact h2
      · rw [if_neg hx10]
        obtain ⟨h1, h2⟩ := ih post l (c + 1) (fun b hb => hpre b (by simp [hb]))
        rw [hsplit] at h1 h2
        obtain ⟨h3, h4⟩ := scan_string_loop_indep q post l (c + 1) l c
        constructor
        · show x :: (scan_string_loop q (y :: ys) l (c + 1)).1 =
            x :: (pre ++ q :: q :: (scan_string_loop q post l c).1)
          rw [h1, h3]
        · rw [← h4]; exact h2

/-- When the remaining bytes never contain the quote, the literal is
unterminated and runs to end of input. -/
theorem scan_string_loop_unterminated :
    ∀ (q : Nat) (input : List Nat) (l c : Nat), (∀ b ∈ input, b ≠ q) →
      (scan_string_loop q input l c).1 = input ∧
      (scan_string_loop q input l c).2.1 = []
  | q, [], l, c, _ => by simp [scan_string_loop_nil]
  | q, [x], l, c, h => by
    have hx : ¬(x = q) := h x (by simp)
    rw [scan_string_loop_one, if_neg hx]
    split <;> simp
  | q, x :: x2 :: rest, l, c, h => by
    have hx : ¬(x = q) := h x (by simp)
    rw [scan_string_loop_cons2, if_neg hx]
    by_cases hx10 : x = 10
    · rw [if_pos hx10]
      obtain ⟨h1, h2⟩ := scan_string_loop_unterminated q (x2 :: rest) (l + 1) 1
        (fun b hb => h b (by simp [hb]))
      constructor
      · show x :: (scan_string_loop q (x2 :: rest) (l + 1) 1).1 = x :: x2 :: rest
        rw [h1]
      · exact h2
    · rw [if_neg hx10]
      obtain ⟨h1, h2⟩ := scan_string_loop_unterminated q (x2 :: rest) l (c + 1)
        (fun b hb => h b (by simp [hb]))
      constructor
      · show x :: (scan_string_loop q (x2 :: rest) l (c + 1)).1 = x :: x2 :: rest
        rw [h1]
      · exact h2

/-! ## Claim theorems -/

/-- C1: For every input X, the concatenation of the `value` fields of the
tokens returned by `tokenize`, interleaved (in position order) with the
bytes skipped as whitespace, equals X byte-for-byte, and the starting
offsets of successive tokens are strictly increasing. -/
theorem claim_C1_coverage_order (dict : KeywordDict) (input : List Nat) :
    (∃ gaps : List (List Nat),
      gaps.length = (tokenize dict input).length + 1 ∧
      (∀ g ∈ gaps, ∀ b ∈ g, is_whitespace b = true) ∧
      interleave gaps ((tokenize dict input).map Token.value) = input) ∧
    List.Chain' (fun a b => a.start < b.start) (tokenize dict input) :=
  ⟨tokenize_go_coverage dict input.length input 0 1 1 le_rfl,
   (tokenize_go_starts dict input.length input 0 1 1).2⟩

/-- C2 counterexample: on the never-closed block comment `/*a`
(bytes 47 42 97), the emitted Comment token does NOT extend to the end
of the input: its value is just `/*`, and the final byte `a` is
tokenized separately as an Identifier. -/
theorem claim_C2_counterexample :
    (tokenize dict0 [47, 42, 97]).map (fun t => (t.type, t.value)) =
      [(TokenType.Comment, [47, 42]), (TokenType.Identifier, [97])] ∧
    ¬((tokenize dict0 [47, 42, 97]).map (fun t => (t.type, t.value)) =
      [(TokenType.Comment, [47, 42, 97])]) := by decide

/-- C2 (amended): when a block comment opened by `/*` is never closed by
`*/`, the Comment token extends from the `/*` through every remaining
byte EXCEPT the final one, which is left unconsumed (the C++ loop guard
`position_ + 1 < input_size_` never reaches it); when nothing follows
`/*` the token is exactly `/*`. -/
theorem claim_C2_amended (rest : List Nat) (pos line col : Nat)
    (h : has_star_slash rest = false) :
    (scan_block_comment (47 :: 42 :: rest) pos line col).1.type =
      TokenType.Comment ∧
    (scan_block_comment (47 :: 42 :: rest) pos line col).1.value =
      47 :: 42 :: rest.dropLast ∧
    (scan_block_comment (47 :: 42 :: rest) pos line col).2.1 =
      rest.drop (rest.length - 1) := by
  rw [scan_block_comment_cons2]
  obtain ⟨h1, h2⟩ := scan_block_comment_loop_no_close rest line (col + 2) h
  refine ⟨rfl, ?_, h2⟩
  show 47 :: 42 :: (scan_block_comment_loop rest line (col + 2)).1 = _
  rw [h1]

theorem claim_C2_amended_witness :
    has_star_slash [97] = false ∧
    (scan_block_comment [47, 42, 97] 0 1 1).1.value = [47, 42] ∧
    (scan_block_comment [47, 42, 97] 0 1 1).2.1 = [97] := by
  have h := claim_C2_amended [97] 0 1 1 (by decide)
  exact ⟨by decide, by simpa using h.2.1, by simpa using h.2.2⟩

/-- C3 counterexample: on the 16-byte input `/* hi\n there */x` the
Comment token has length 15 (not 13) and the Identifier `x` is at line
2, column 10 (not column 11). -/
theorem claim_C3_counterexample :
    ((tokenize dict0
        [47, 42, 32, 104, 105, 10, 32, 116, 104, 101, 114, 101, 32, 42, 47, 120]).map
      (fun t => (t.type, t.value.length, t.line, t.column)) =
      [(TokenType.Comment, 15, 1, 1), (TokenType.Identifier, 1, 2, 10)]) ∧
    ¬(((tokenize dict0
        [47, 42, 32, 104, 105, 10, 32, 116, 104, 101, 114, 101, 32, 42, 47, 120]).map
      (fun t => (t.type, t.value.length, t.line, t.column)) =
      [(TokenType.Comment, 13, 1, 1), (TokenType.Identifier, 1, 2, 11)])) := by decide

/-- C3 (amended): on the 16-byte input `/* hi\n there */x`, `tokenize`
returns exactly one Comment token of length 15 followed by an Identifier
token with value `x`, line 2 and column 10 (for any keyword dictionary
in which `x` is not a keyword). -/
theorem claim_C3_amended (dict : KeywordDict)
    (h1 : dict.find_keyword [120] = 0) (h2 : dict.find_keyword_simd [120] = 0) :
    tokenize dict
        [47, 42, 32, 104, 105, 10, 32, 116, 104, 101, 114, 101, 32, 42, 47, 120] =
      [⟨TokenType.Comment,
        [47, 42, 32, 104, 105, 10, 32, 116, 104, 101, 114, 101, 32, 42, 47],
        0, 1, 1, 0⟩,
       ⟨TokenType.Identifier, [120], 0, 2, 10, 15⟩] := by
  have hN1 : next_token dict
      [47, 42, 32, 104, 105, 10, 32, 116, 104, 101, 114, 101, 32, 42, 47, 120]
      0 1 1 =
      (⟨TokenType.Comment,
        [47, 42, 32, 104, 105, 10, 32, 116, 104, 101, 114, 101, 32, 42, 47],
        0, 1, 1, 0⟩, [120], 2, 10) := rfl
  have hN2 : next_token dict [120] 15 2 10 =
      (⟨TokenType.Identifier, [120], 0, 2, 10, 15⟩, [], 2, 11) := by
    rw [next_token_cons, if_pos (by decide : is_identifier_start 120 = true),
      scan_identifier_or_keyword_def,
      show (scan_ident_loop [120]).1 = [120] from rfl,
      show (scan_ident_loop [120]).2 = ([] : List Nat) from rfl, h1, h2]
    decide
  have step1 := tokenize_go_step dict 15
    [47, 42, 32, 104, 105, 10, 32, 116, 104, 101, 114, 101, 32, 42, 47, 120]
    0 1 1 1 1 47 [42, 32, 104, 105, 10, 32, 116, 104, 101, 114, 101, 32, 42, 47, 120]
    ⟨TokenType.Comment,
      [47, 42, 32, 104, 105, 10, 32, 116, 104, 101, 114, 101, 32, 42, 47],
      0, 1, 1, 0⟩ [120] 2 10 (by decide) (by decide) hN1 (by decide) (by decide)
  have step2 := tokenize_go_step dict 14 [120] 15 2 10 2 10 120 []
    ⟨TokenType.Identifier, [120], 0, 2, 10, 15⟩ [] 2 11
    (by decide) (by decide) hN2 (by decide) (by decide)
  have e1 : tokenize_go dict (15 + 1)
      [47, 42, 32, 104, 105, 10, 32, 116, 104, 101, 114, 101, 32, 42, 47, 120]
      0 1 1 =
      (⟨TokenType.Comment,
        [47, 42, 32, 104, 105, 10, 32, 116, 104, 101, 114, 101, 32, 42, 47],
        0, 1, 1, 0⟩ : Token) :: tokenize_go dict (14 + 1) [120] 15 2 10 :=
    step1.trans rfl
  have e2 : tokenize_go dict (14 + 1) [120] 15 2 10 =
      (⟨TokenType.Identifier, [120], 0, 2, 10, 15⟩ : Token) ::
        tokenize_go dict 14 [] 16 2 11 :=
    step2.trans rfl
  rw [tokenize,
    show ([47, 42, 32, 104, 105, 10, 32, 116, 104, 101, 114, 101, 32, 42, 47,
      120] : List Nat).length = 15 + 1 from rfl,
    e1, e2, tokenize_go_nil]

theorem claim_C3_amended_witness :
    dict0.find_keyword [120] = 0 ∧ dict0.find_keyword_simd [120] = 0 ∧
    tokenize dict0
        [47, 42, 32, 104, 105, 10, 32, 116, 104, 101, 114, 101, 32, 42, 47, 120] =
      [⟨TokenType.Comment,
        [47, 42, 32, 104, 105, 10, 32, 116, 104, 101, 114, 101, 32, 42, 47],
        0, 1, 1, 0⟩,
       ⟨TokenType.Identifier, [120], 0, 2, 10, 15⟩] :=
  ⟨rfl, rfl, claim_C3_amended dict0 rfl rfl⟩

/-- C4: `scan_operator_or_delimiter` consumes a second byte if and only
if the two-byte pair is one of `<=`, `<>`, `<<`, `>=`, `>>`, `!=`, `==`,
`||`, `&&`, `::`; consequently `===` tokenizes as `==` then `=`, `!==`
as `!=` then `=`, `<<<` as `<<` then `<`, and `->` as `-` then `>`. -/
theorem claim_C4_operator_maximality :
    (∀ (c c2 : Nat) (rest : List Nat) (pos line col : Nat),
      (scan_operator_or_delimiter (c :: c2 :: rest) pos line col).1.value =
        (if op_pair c c2 then [c, c2] else [c])) ∧
    (∀ c c2 : Nat, op_pair c c2 = true ↔
      ((c = 60 ∧ c2 = 61) ∨ (c = 60 ∧ c2 = 62) ∨ (c = 60 ∧ c2 = 60) ∨
       (c = 62 ∧ c2 = 61) ∨ (c = 62 ∧ c2 = 62) ∨ (c = 33 ∧ c2 = 61) ∨
       (c = 61 ∧ c2 = 61) ∨ (c = 124 ∧ c2 = 124) ∨ (c = 38 ∧ c2 = 38) ∨
       (c = 58 ∧ c2 = 58))) ∧
    (tokenize dict0 [61, 61, 61]).map Token.value = [[61, 61], [61]] ∧
    (tokenize dict0 [33, 61, 61]).map Token.value = [[33, 61], [61]] ∧
    (tokenize dict0 [60, 60, 60]).map Token.value = [[60, 60], [60]] ∧
    (tokenize dict0 [45, 62]).map Token.value = [[45], [62]] := by
  refine ⟨?_, ?_, by decide⟩
  · intro c c2 rest pos line col
    rw [scan_operator_cons2]
    split <;> rfl
  · intro c c2
    rw [op_pair]
    simp only [Bool.or_eq_true, Bool.and_eq_true, beq_iff_eq]
    constructor <;> intro h <;> casesm* _ ∨ _, _ ∧ _ <;> simp_all

/-- C5: for every input and every returned token T with starting offset
o, `T.line` is 1 plus the number of newline bytes in the input before o,
and `T.column` is o minus the offset of the last newline before o (−1
when none precedes); this covers tokens after strings, comments and
SIMD-skipped whitespace containing newlines. -/
theorem claim_C5_position_fidelity (dict : KeywordDict) (input : List Nat)
    (t : Token) (ht : t ∈ tokenize dict input) :
    t.line = 1 + count_nl (input.take t.start) ∧
    (t.column : Int) = (t.start : Int) - last_nl_offset (input.take t.start) := by
  obtain ⟨k, hk, hstart, hupd⟩ :=
    tokenize_go_position dict input.length input 0 1 1 t ht
  have hk2 : t.start = k := by omega
  have hchar := update_position_char (input.take k)
  rw [hupd, Prod.mk.injEq] at hchar
  obtain ⟨hline, hcol⟩ := hchar
  have hlen : (input.take k).length = k := by rw [List.length_take]; omega
  constructor
  · rw [hk2]; exact hline
  · rw [hk2, hcol]
    unfold last_nl_offset
    rw [hlen]
    push_cast
    omega

theorem claim_C5_position_fidelity_witness :
    (2 : Nat) = 1 + count_nl ([97, 10, 98].take 2) ∧
    ((1 : Nat) : Int) = (2 : Int) - last_nl_offset ([97, 10, 98].take 2) := by
  have h := claim_C5_position_fidelity dict0 [97, 10, 98]
    ⟨TokenType.Identifier, [98], 0, 2, 1, 2⟩ (by decide)
  exact h

/-- C6 counterexample: the input `'it''s'` is 7 bytes, not 6, and
tokenizing it yields one String token of length 7, so the claim's
asserted 6-byte input / length-6 token does not match the code. -/
theorem claim_C6_counterexample :
    ([39, 105, 116, 39, 39, 115, 39] : List Nat).length = 7 ∧
    (tokenize dict0 [39, 105, 116, 39, 39, 115, 39]).map
      (fun t => (t.type, t.value.length)) = [(TokenType.String, 7)] ∧
    ¬((tokenize dict0 [39, 105, 116, 39, 39, 115, 39]).map
      (fun t => (t.type, t.value.length)) = [(TokenType.String, 6)]) := by decide

/-- C6 (amended): in string scanning, a byte equal to the opening quote
terminates the literal unless the next byte is the same quote, in which
case both are consumed and scanning continues; a closed string's value
includes both quotes and an unterminated one runs to end of input.  In
particular the 7-byte input `'it''s'` yields one String token of length
7, and the 1-byte input `"` yields one String token of length 1. -/
theorem claim_C6_amended :
    (∀ (q : Nat) (pre post : List Nat) (l c : Nat),
      (∀ b ∈ pre, b ≠ q) → post.head? ≠ some q →
      (scan_string_loop q (pre ++ q :: post) l c).1 = pre ++ [q] ∧
      (scan_string_loop q (pre ++ q :: post) l c).2.1 = post) ∧
    (∀ (q : Nat) (pre post : List Nat) (l c : Nat),
      (∀ b ∈ pre, b ≠ q) →
      (scan_string_loop q (pre ++ q :: q :: post) l c).1 =
        pre ++ q :: q :: (scan_string_loop q post l c).1) ∧
    (∀ (q : Nat) (input : List Nat) (l c : Nat), (∀ b ∈ input, b ≠ q) →
      (scan_string_loop q input l c).1 = input) ∧
    (tokenize dict0 [39, 105, 116, 39, 39, 115, 39]).map
      (fun t => (t.type, t.value)) =
      [(TokenType.String, [39, 105, 116, 39, 39, 115, 39])] ∧
    (tokenize dict0 [34]).map (fun t => (t.type, t.value)) =
      [(TokenType.String, [34])] := by
  refine ⟨?_, ?_, ?_, by decide⟩
  · intro q pre post l c hpre hpost
    exact scan_string_loop_term q pre post l c hpre hpost
  · intro q pre post l c hpre
    exact (scan_string_loop_escape q pre post l c hpre).1
  · intro q input l c h
    exact (scan_string_loop_unterminated q input l c h).1

theorem claim_C6_amended_witness :
    (scan_string_loop 39 ([105, 116] ++ 39 :: 39 :: [115, 39]) 1 2).1 =
      [105, 116] ++ 39 :: 39 :: (scan_string_loop 39 [115, 39] 1 2).1 ∧
    (scan_string_loop 39 ([] ++ 39 :: []) 1 2).1 = [] ++ [39] ∧
    (scan_string_loop 34 [104, 105] 1 2).1 = [104, 105] :=
  ⟨claim_C6_amended.2.1 39 [105, 116] [115, 39] 1 2 (by decide),
   (claim_C6_amended.1 39 [] [] 1 2 (by decide) (by decide)).1,
   claim_C6_amended.2.2.1 34 [104, 105] 1 2 (by decide)⟩

/-- C7: a Number token begun at a DIGIT byte is the greedy consumption
of digits, at most one decimal point (forbidden once an exponent marker
was seen), and at most one `e`/`E` optionally followed by a single
`+`/`-` immediately after it, with no digit required after marker or
sign; in particular `1.5e+3` yields one Number token of length 6. -/
theorem claim_C7_number_shape :
    (∀ (c : Nat) (rest : List Nat), is_digit c = true →
      (scan_number_loop false false (c :: rest)).1 ++
        (scan_number_loop false false (c :: rest)).2 = c :: rest ∧
      number_shape false false (scan_number_loop false false (c :: rest)).1 = true ∧
      ∀ c' r', (scan_number_loop false false (c :: rest)).2 = c' :: r' →
        number_shape false false
          ((scan_number_loop false false (c :: rest)).1 ++ [c']) = false) ∧
    (tokenize dict0 [49, 46, 53, 101, 43, 51]).map
      (fun t => (t.type, t.value.length)) = [(TokenType.Number, 6)] := by
  refine ⟨?_, by decide⟩
  intro c rest _
  exact ⟨scan_number_loop_append false false (c :: rest),
    scan_number_loop_shape_true false false (c :: rest),
    fun c' r' h => scan_number_loop_shape_max false false (c :: rest) c' r' h⟩

theorem claim_C7_number_shape_witness :
    is_digit 49 = true ∧
    (scan_number_loop false false [49, 46, 53, 101, 43, 51]).1 ++
      (scan_number_loop false false [49, 46, 53, 101, 43, 51]).2 =
      [49, 46, 53, 101, 43, 51] ∧
    number_shape false false
      (scan_number_loop false false [49, 46, 53, 101, 43, 51]).1 = true := by
  have h := claim_C7_number_shape.1 49 [46, 53, 101, 43, 51] (by decide)
  exact ⟨by decide, h.1, h.2.1⟩

/-- C8: a byte whose classification-table entry is 0 (`?`, `@`, `#`,
`$`, backslash, backtick, bytes 0x80–0xFF, …) at a token start is
consumed as a single-byte token of kind Operator: no two-byte extension
fires and `is_delimiter` is false for it. -/
theorem claim_C8_empty_class (dict : KeywordDict) (b : Nat) (rest : List Nat)
    (pos line col : Nat) (hb : b < 256) (h0 : char_lookup_table b = 0) :
    next_token dict (b :: rest) pos line col =
      (⟨TokenType.Operator, [b], 0, line, col, pos⟩, rest, line, col + 1) := by
  have hid : is_identifier_start b = false := by simp [is_identifier_start, h0]
  have hdig : is_digit b = false := by simp [is_digit, h0]
  have hq : is_quote b = false := by simp [is_quote, h0]
  have hdel : is_delimiter b = false := by simp [is_delimiter, h0]
  have h45 : b ≠ 45 := by rintro rfl; exact absurd h0 (by decide)
  have h47 : b ≠ 47 := by rintro rfl; exact absurd h0 (by decide)
  rw [next_token_cons]
  rw [if_neg (by simp [hid]), if_neg (by simp [hdig]), if_neg (by simp [hq]),
      if_neg (by simp [h45]), if_neg (by simp [h47])]
  cases rest with
  | nil =>
    rw [scan_operator_one]
    simp [hdel]
  | cons c2 rest2 =>
    rw [scan_operator_cons2]
    have hop : op_pair b c2 = false := by
      by_contra hne
      have hop2 : op_pair b c2 = true := by
        cases hx : op_pair b c2
        · exact absurd hx hne
        · rfl
      rcases op_pair_first hop2 with rfl | rfl | rfl | rfl | rfl | rfl | rfl <;>
        exact absurd h0 (by decide)
    rw [if_neg (by simp [hop])]
    simp [hdel]

theorem claim_C8_empty_class_witness :
    (63 : Nat) < 256 ∧ char_lookup_table 63 = 0 ∧
    next_token dict0 [63] 0 1 1 =
      (⟨TokenType.Operator, [63], 0, 1, 1, 0⟩, [], 1, 2) :=
  ⟨by decide, by decide, claim_C8_empty_class dict0 63 [] 0 1 1 (by decide) (by decide)⟩

/-- C9: for every input, `tokenize` returns no Whitespace token and no
EndOfFile token, and the empty input yields the empty sequence. -/
theorem claim_C9_no_ws_no_eof (dict : KeywordDict) (input : List Nat) :
    (∀ t ∈ tokenize dict input,
      t.type ≠ TokenType.Whitespace ∧ t.type ≠ TokenType.EndOfFile) ∧
    tokenize dict [] = [] :=
  ⟨fun t ht => tokenize_go_types dict input.length input 0 1 1 t ht, rfl⟩

theorem claim_C9_no_ws_no_eof_witness :
    ((⟨TokenType.Identifier, [97], 0, 1, 1, 0⟩ : Token).type ≠
        TokenType.Whitespace ∧
      (⟨TokenType.Identifier, [97], 0, 1, 1, 0⟩ : Token).type ≠
        TokenType.EndOfFile) ∧
    tokenize dict0 [] = [] := by
  have h := claim_C9_no_ws_no_eof dict0 [97]
  exact ⟨h.1 ⟨TokenType.Identifier, [97], 0, 1, 1, 0⟩ (by decide), h.2⟩

/-- C10: `next_token` on a nonempty remainder consumes at least one byte
and never reads past the input (`value ++ rest = remainder`), and the
tokenize loop's result is independent of any fuel bound at least the
remaining length — i.e. the C++ `while` loop terminates on every finite
input. -/
theorem claim_C10_termination (dict : KeywordDict) (rem : List Nat)
    (pos line col : Nat) (h : rem ≠ []) :
    (next_token dict rem pos line col).2.1.length < rem.length ∧
    (next_token dict rem pos line col).1.value ++
      (next_token dict rem pos line col).2.1 = rem ∧
    (∀ extra : Nat, tokenize_go dict (rem.length + extra) rem pos line col =
      tokenize_go dict rem.length rem pos line col) := by
  cases rem with
  | nil => exact absurd rfl h
  | cons c rest =>
    rcases hN : next_token dict (c :: rest) pos line col with ⟨tok, r, l2, k2⟩
    obtain ⟨happ, hne, _, _, _, _, _, _⟩ :=
      next_token_spec dict c rest pos line col tok r l2 k2 hN
    refine ⟨?_, happ, ?_⟩
    · show r.length < (c :: rest).length
      have hsum : tok.value.length + r.length = (c :: rest).length := by
        rw [← happ]; simp
      have h1 : 1 ≤ tok.value.length := by
        cases hv : tok.value with
        | nil => exact absurd hv hne
        | cons a l => simp
      simp only [List.length_cons] at hsum ⊢
      omega
    · intro extra
      exact tokenize_go_fuel dict ((c :: rest).length + extra) (c :: rest)
        pos line col (c :: rest).length (by simp) le_rfl

theorem claim_C10_termination_witness :
    ([53] : List Nat) ≠ [] ∧
    (next_token dict0 [53] 0 1 1).2.1.length < 1 ∧
    (next_token dict0 [53] 0 1 1).1.value ++ (next_token dict0 [53] 0 1 1).2.1 =
      [53] := by
  have h := claim_C10_termination dict0 [53] 0 1 1 (by decide)
  exact ⟨by decide, h.1, h.2.1⟩

example : last_nl_offset [97, 10, 98] = 1 := by decide

example : last_nl_offset [97, 98] = -1 := by decide

end db25
